import Mathlib

/-!
Verification of the Qwen-Astro RAG engine against its specification.

This file gives a shallow embedding, in Lean 4, of the parts of the
repository that the specification's claims talk about:

* `rag_engine/src/data_processor.py` — text normalization, metadata
  filtering, document sorting, and stable (content-addressed) node ids;
* `rag_engine/src/group_manager.py` — the JSON catalog of groups and
  the metadata/storage deletion step;
* `rag_engine/src/rag_pipeline.py` — the add/delete orchestration
  (`add_files_to_group`, `delete_group`, `delete_files_from_group`,
  `delete_webpages_from_group`);
* `rag_engine/src/document_parsers/pdf_parser.py` — per-page chunking;
* `rag_engine/src/document_parsers/format_detector.py` — format
  detection from extension, magic bytes and ZIP members;
* `rag_engine/src/document_parsers/base_parser.py` — `_clean_text` and
  chunk metadata construction.

Python strings are modelled as Lean `String`s, Python dicts (whose keys
are strings and whose relevant values are strings) as insertion-ordered
association lists `List (String × String)`, and the SHA-256 of
`hashlib` as an executable Lean implementation of FIPS 180-4 SHA-256.
External effects (ChromaDB calls, the filesystem) are modelled by
explicit state passing plus an environment record describing the
outcome of each external call.
-/

/-! ### Python string primitives -/

/-- Code points that Python's `str.split()` / `str.strip()` treat as
whitespace (the Unicode whitespace set; the ASCII part is what all the
counterexamples below use). -/
def pyIsSpace (c : Char) : Bool :=
  c.toNat = 32 || c.toNat = 9 || c.toNat = 10 || c.toNat = 11 ||
  c.toNat = 12 || c.toNat = 13 ||
  (28 ≤ c.toNat && c.toNat ≤ 31) ||
  c.toNat = 133 || c.toNat = 160 || c.toNat = 5760 ||
  (8192 ≤ c.toNat && c.toNat ≤ 8202) ||
  c.toNat = 8232 || c.toNat = 8233 || c.toNat = 8239 ||
  c.toNat = 8287 || c.toNat = 12288

/-- Lexicographic strict order on character lists by code point,
Python's `<` on `str`. -/
def charListLt : List Char → List Char → Bool
  | [], [] => false
  | [], _ :: _ => true
  | _ :: _, [] => false
  | a :: as, b :: bs =>
    if a.toNat < b.toNat then true
    else if b.toNat < a.toNat then false
    else charListLt as bs

/-- Python's `<=` on `str`: the negation of the converse strict order. -/
def charListLe (a b : List Char) : Bool := !(charListLt b a)

/-- Python's `<` on strings. -/
def strLtB (a b : String) : Bool := charListLt a.data b.data

/-- Python's `<=` on strings. -/
def strLeB (a b : String) : Bool := charListLe a.data b.data

/-- UTF-8 encoding of one character, as `str.encode("utf-8")` would
produce for it. -/
def utf8Bytes (c : Char) : List Nat :=
  let n := c.toNat
  if n < 128 then [n]
  else if n < 2048 then
    [192 ||| (n >>> 6), 128 ||| (n &&& 63)]
  else if n < 65536 then
    [224 ||| (n >>> 12), 128 ||| ((n >>> 6) &&& 63), 128 ||| (n &&& 63)]
  else
    [240 ||| (n >>> 18), 128 ||| ((n >>> 12) &&& 63),
     128 ||| ((n >>> 6) &&& 63), 128 ||| (n &&& 63)]

/-- UTF-8 bytes of a string (`s.encode("utf-8")`). -/
def strBytes (s : String) : List Nat := s.data.flatMap utf8Bytes

/-- Python `str.strip()`: drop whitespace from both ends.  The right
end is handled by the recursive `pyStripEnd` below. -/
def pyStripEnd : List Char → List Char
  | [] => []
  | c :: cs =>
    match pyStripEnd cs with
    | [] => if pyIsSpace c then [] else [c]
    | r => c :: r

/-- Python `str.strip()` on a character list. -/
def pyStrip (l : List Char) : List Char :=
  pyStripEnd (l.dropWhile pyIsSpace)

/-- Python `str.split()` with no separator: maximal runs of
non-whitespace characters, in order; empty pieces never occur.  A
non-space character starts a new word when the previous character was
whitespace (or at the front), and extends the current word otherwise. -/
def pyWords : List Char → List (List Char)
  | [] => []
  | c :: cs =>
    if pyIsSpace c then pyWords cs
    else
      match cs with
      | [] => [[c]]
      | x :: _ =>
        if pyIsSpace x then [c] :: pyWords cs
        else (c :: (pyWords cs).headD []) :: (pyWords cs).tail

/-- Python `" ".join(ws)`: words glued with a single space. -/
def joinSp : List (List Char) → List Char
  | [] => []
  | w :: ws =>
    match ws with
    | [] => w
    | _ :: _ => w ++ ' ' :: joinSp ws

/-- Replace every occurrence of the two-character sequence CR LF by LF,
scanning left to right, as Python's `text.replace("\r\n", "\n")`. -/
def replaceCrlf : List Char → List Char
  | [] => []
  | '\r' :: '\n' :: rest => '\n' :: replaceCrlf rest
  | c :: rest => c :: replaceCrlf rest

/-- The newline normalization `text.replace("\r\n", "\n").replace("\r", "\n")`
shared by `DataProcessor._clean_and_normalize` and `_clean_text`. -/
def normalizeNewlines (l : List Char) : List Char :=
  (replaceCrlf l).map (fun c => if c = '\r' then '\n' else c)

/-! ### SHA-256 (FIPS 180-4), the model of `hashlib.sha256(...).hexdigest()` -/

/-- Truncation to a 32-bit word. -/
def w32 (n : Nat) : Nat := n % 4294967296

/-- Right rotation of a 32-bit word. -/
def rotr32 (x n : Nat) : Nat := w32 ((x >>> n) ||| (x <<< (32 - n)))

/-- SHA-256 small sigma 0. -/
def ssig0 (x : Nat) : Nat := (rotr32 x 7) ^^^ (rotr32 x 18) ^^^ (x >>> 3)

/-- SHA-256 small sigma 1. -/
def ssig1 (x : Nat) : Nat := (rotr32 x 17) ^^^ (rotr32 x 19) ^^^ (x >>> 10)

/-- SHA-256 big sigma 0. -/
def bsig0 (x : Nat) : Nat := (rotr32 x 2) ^^^ (rotr32 x 13) ^^^ (rotr32 x 22)

/-- SHA-256 big sigma 1. -/
def bsig1 (x : Nat) : Nat := (rotr32 x 6) ^^^ (rotr32 x 11) ^^^ (rotr32 x 25)

/-- The 64 SHA-256 round constants of FIPS 180-4 (the first 32 bits of
the fractional parts of the cube roots of the first 64 primes), written
in decimal. -/
def sha256K : List Nat :=
  [1116352408, 1899447441, 3049323471, 3921009573,
   961987163, 1508970993, 2453635748, 2870763221,
   3624381080, 310598401, 607225278, 1426881987,
   1925078388, 2162078206, 2614888103, 3248222580,
   3835390401, 4022224774, 264347078, 604807628,
   770255983, 1249150122, 1555081692, 1996064986,
   2554220882, 2821834349, 2952996808, 3210313671,
   3336571891, 3584528711, 113926993, 338241895,
   666307205, 773529912, 1294757372, 1396182291,
   1695183700, 1986661051, 2177026350, 2456956037,
   2730485921, 2820302411, 3259730800, 3345764771,
   3516065817, 3600352804, 4094571909, 275423344,
   430227734, 506948616, 659060556, 883997877,
   958139571, 1322822218, 1537002063, 1747873779,
   1955562222, 2024104815, 2227730452, 2361852424,
   2428436474, 2756734187, 3204031479, 3329325298]

/-- SHA-256 padding for a message of `len` bytes. -/
def sha256Pad (len : Nat) : List Nat :=
  let zeros := (64 + 55 - (len % 64)) % 64
  let bits := 8 * len
  128 :: List.replicate zeros 0 ++
    [(bits >>> 56) &&& 255, (bits >>> 48) &&& 255, (bits >>> 40) &&& 255,
     (bits >>> 32) &&& 255, (bits >>> 24) &&& 255, (bits >>> 16) &&& 255,
     (bits >>> 8) &&& 255, bits &&& 255]

/-- Big-endian packing of bytes into 32-bit words. -/
def bytesToWords : List Nat → List Nat
  | b0 :: b1 :: b2 :: b3 :: rest =>
    ((((b0 <<< 8) ||| b1) <<< 8 ||| b2) <<< 8 ||| b3) :: bytesToWords rest
  | _ => []

/-- Split a byte list into 64-byte blocks, with enough fuel to consume
the whole list (each step removes at least one byte). -/
def toBlocksGo : Nat → List Nat → List (List Nat)
  | 0, _ => []
  | _, [] => []
  | fuel + 1, b :: rest => ((b :: rest).take 64) :: toBlocksGo fuel ((b :: rest).drop 64)

/-- Split a byte list into 64-byte blocks. -/
def toBlocks (l : List Nat) : List (List Nat) := toBlocksGo l.length l

/-- Extend the 16 message words to 64 by pushing `fuel` further words. -/
def sha256Extend (ws : Array Nat) : Nat → Array Nat
  | 0 => ws
  | fuel + 1 =>
    let n := ws.size
    let x := w32 (ws.getD (n - 16) 0 + ssig0 (ws.getD (n - 15) 0) +
                  ws.getD (n - 7) 0 + ssig1 (ws.getD (n - 2) 0))
    sha256Extend (ws.push x) fuel

/-- The running state of the SHA-256 compression function. -/
structure Sha256St where
  a : Nat
  b : Nat
  c : Nat
  d : Nat
  e : Nat
  f : Nat
  g : Nat
  h : Nat

/-- One run of the 64 compression rounds, consuming the round constants
and message-schedule words in lockstep. -/
def sha256Rounds : List Nat → List Nat → Sha256St → Sha256St
  | k :: ks, w :: ws, st =>
    let ch := (st.e &&& st.f) ^^^ ((st.e ^^^ 4294967295) &&& st.g)
    let maj := (st.a &&& st.b) ^^^ (st.a &&& st.c) ^^^ (st.b &&& st.c)
    let t1 := w32 (st.h + bsig1 st.e + ch + k + w)
    let t2 := w32 (bsig0 st.a + maj)
    sha256Rounds ks ws
      ⟨w32 (t1 + t2), st.a, st.b, st.c, w32 (st.d + t1), st.e, st.f, st.g⟩
  | _, _, st => st

/-- Process one 64-byte block, updating the eight hash words. -/
def sha256Block (hs : Sha256St) (block : List Nat) : Sha256St :=
  let ws := (sha256Extend (bytesToWords block).toArray 48).toList
  let r := sha256Rounds sha256K ws hs
  ⟨w32 (hs.a + r.a), w32 (hs.b + r.b), w32 (hs.c + r.c), w32 (hs.d + r.d),
   w32 (hs.e + r.e), w32 (hs.f + r.f), w32 (hs.g + r.g), w32 (hs.h + r.h)⟩

/-- The SHA-256 initial hash value of FIPS 180-4 (the first 32 bits of
the fractional parts of the square roots of the first 8 primes), in
decimal. -/
def sha256Init : Sha256St :=
  ⟨1779033703, 3144134277, 1013904242, 2773480762,
   1359893119, 2600822924, 528734635, 1541459225⟩

/-- One lowercase hex digit. -/
def hexChar (n : Nat) : Char :=
  Char.ofNat (if n < 10 then 48 + n else 87 + n)

/-- Eight lowercase hex digits of a 32-bit word. -/
def wordToHex (x : Nat) : List Char :=
  [hexChar ((x >>> 28) &&& 15), hexChar ((x >>> 24) &&& 15),
   hexChar ((x >>> 20) &&& 15), hexChar ((x >>> 16) &&& 15),
   hexChar ((x >>> 12) &&& 15), hexChar ((x >>> 8) &&& 15),
   hexChar ((x >>> 4) &&& 15), hexChar (x &&& 15)]

/-- SHA-256 lowercase hex digest of a byte list. -/
def sha256HexBytes (msg : List Nat) : String :=
  let final := (toBlocks (msg ++ sha256Pad msg.length)).foldl sha256Block sha256Init
  ⟨[final.a, final.b, final.c, final.d,
    final.e, final.f, final.g, final.h].flatMap wordToHex⟩

/-- The model of Python's `hashlib.sha256(s.encode("utf-8")).hexdigest()`. -/
def sha256Hex (s : String) : String := sha256HexBytes (strBytes s)

/-! ### Documents and `DataProcessor._clean_and_normalize`
(`rag_engine/src/data_processor.py`) -/

/-- Python dict with string keys and (for the fields the claims touch)
string values, in insertion order.  `page_number`, an int in Python, is
represented by its decimal string. -/
abbrev Metadata := List (String × String)

/-- Python `d.get(k)` / `d[k]` on a metadata dict. -/
def lookupMeta (md : Metadata) (k : String) : Option String :=
  (md.find? (fun p => p.1 == k)).map (fun p => p.2)

/-- Python `d.get(k, dflt)` followed by `str(...)`. -/
def getMetaD (md : Metadata) (k dflt : String) : String :=
  (lookupMeta md k).getD dflt

/-- A llama-index `Document`: text plus metadata. -/
structure Doc where
  text : String
  metadata : Metadata
deriving DecidableEq

/-- `DataProcessor.STABLE_METADATA_KEYS`. -/
def STABLE_METADATA_KEYS : List String :=
  ["file_name", "page_label", "file_id", "webpage_id", "source_url"]

/-- `keys_to_keep = STABLE_METADATA_KEYS + ["group_id"]` in
`_clean_and_normalize`. -/
def keysToKeep : List String := STABLE_METADATA_KEYS ++ ["group_id"]

/-- The dict comprehension
`{key: doc.metadata[key] for key in keys_to_keep if key in doc.metadata}`. -/
def filterMeta (md : Metadata) : Metadata :=
  keysToKeep.filterMap (fun k => (lookupMeta md k).map (fun v => (k, v)))

/-- The text normalization
`" ".join(doc.text.replace("\r\n", "\n").replace("\r", "\n").split())`. -/
def pyNormalizeText (s : String) : String :=
  ⟨joinSp (pyWords (normalizeNewlines s.data))⟩

/-- The per-document body of the `_clean_and_normalize` loop. -/
def cleanDoc (d : Doc) : Doc :=
  ⟨pyNormalizeText d.text, filterMeta d.metadata⟩

/-- The sort key of `_clean_and_normalize`:
`str(metadata.get("group_id", "")) + str(metadata.get("file_name", ""))
+ str(metadata.get("page_label", ""))` — string concatenation. -/
def docSortKey (d : Doc) : String :=
  getMetaD d.metadata "group_id" "" ++ getMetaD d.metadata "file_name" "" ++
    getMetaD d.metadata "page_label" ""

/-- Comparison used to model `processed_docs.sort(key=...)`. -/
def docLeB (a b : Doc) : Bool := strLeB (docSortKey a) (docSortKey b)

/-- The comparison as a decidable relation. -/
def docLe (a b : Doc) : Prop := docLeB a b = true

instance : DecidableRel docLe := fun a b => instDecidableEqBool _ _

/-- `DataProcessor._clean_and_normalize`: clean every document, then
sort by the concatenated key.  Python's `list.sort` is a stable sort by
a total preorder; all stable sorts agree extensionally, so it is
modelled by the structural stable insertion sort. -/
def cleanAndNormalize (docs : List Doc) : List Doc :=
  List.insertionSort docLe (docs.map cleanDoc)

/-! ### Stable node ids (`DataProcessor._generate_stable_node_ids`) -/

/-- A llama-index node as the id-generation step sees it: text,
metadata, and the `node.id_` field. -/
structure RagNode where
  text : String
  metadata : Metadata
  nid : String
deriving DecidableEq

/-- Python `<=` on pairs of strings (compare first components, then
second), as used by `sorted(node.metadata.items())`. -/
def pairLeB (p q : String × String) : Bool :=
  if charListLt p.1.data q.1.data then true
  else if charListLt q.1.data p.1.data then false
  else charListLe p.2.data q.2.data

/-- The pair comparison as a decidable relation. -/
def pairLe (p q : String × String) : Prop := pairLeB p q = true

instance : DecidableRel pairLe := fun p q => instDecidableEqBool _ _

/-- `sorted(node.metadata.items())` (stable sort of the key/value
pairs). -/
def sortedItems (md : Metadata) : Metadata :=
  List.insertionSort pairLe md

/-- The f-string `f'"{k}":"{v}"'` for one metadata item. -/
def quotedPair (p : String × String) : String :=
  "\"" ++ p.1 ++ "\":\"" ++ p.2 ++ "\""

/-- `metadata_str = ",".join(f'"{k}":"{v}"' for k, v in sorted(node.metadata.items()))`. -/
def codeMetadataStr (md : Metadata) : String :=
  String.intercalate "," ((sortedItems md).map quotedPair)

/-- `content_for_hash = f"{node.text}|{metadata_str}"`. -/
def contentForHash (n : RagNode) : String :=
  n.text ++ "|" ++ codeMetadataStr n.metadata

/-- The id assigned to one node:
`hashlib.sha256(content_for_hash.encode("utf-8")).hexdigest()`. -/
def stableNodeId (n : RagNode) : String := sha256Hex (contentForHash n)

/-- `DataProcessor._generate_stable_node_ids`: assign the stable id to
every node in the list. -/
def generateStableNodeIds (ns : List RagNode) : List RagNode :=
  ns.map (fun n => { n with nid := stableNodeId n })

/-- Ordering of metadata items by key alone. -/
def keyLeB (p q : String × String) : Bool := charListLe p.1.data q.1.data

/-- The key comparison as a decidable relation. -/
def keyLe (p q : String × String) : Prop := keyLeB p q = true

instance : DecidableRel keyLe := fun p q => instDecidableEqBool _ _

/-- The metadata items sorted by key (what the spec's words describe;
with the distinct keys of a Python dict this agrees with sorting the
pairs). -/
def sortByKey (md : Metadata) : Metadata :=
  List.insertionSort keyLe md

/-- The canonical metadata string exactly as the claim words it: the
sorted `key:value` pairs joined with commas. -/
def claimCanonicalMetadataStr (md : Metadata) : String :=
  String.intercalate "," ((sortByKey md).map (fun p => p.1 ++ ":" ++ p.2))

/-- The node identifier exactly as claim C2 words it. -/
def claimNodeId (n : RagNode) : String :=
  sha256Hex (n.text ++ "|" ++ claimCanonicalMetadataStr n.metadata)

/-- The canonical metadata string as amended claim C2 words it: the
by-key-sorted pairs, each rendered `"key":"value"` with key and value
double-quoted, joined with commas. -/
def amendedCanonicalMetadataStr (md : Metadata) : String :=
  String.intercalate "," ((sortByKey md).map quotedPair)

/-! ### Claim-side orders and transforms for C6 and C10 -/

/-- The `(group_id, file_name, page_label)` tuple of a document, with
missing keys as the empty string. -/
def tupleKey (d : Doc) : String × String × String :=
  (getMetaD d.metadata "group_id" "", getMetaD d.metadata "file_name" "",
   getMetaD d.metadata "page_label" "")

/-- Lexicographic order on such string triples (Python tuple `<=`). -/
def tripleLeB (x y : String × String × String) : Bool :=
  if charListLt x.1.data y.1.data then true
  else if charListLt y.1.data x.1.data then false
  else if charListLt x.2.1.data y.2.1.data then true
  else if charListLt y.2.1.data x.2.1.data then false
  else charListLe x.2.2.data y.2.2.data

/-- Claim C6 as stated: the output of `_clean_and_normalize` is pairwise
ordered by the lexicographic tuple order on
`(group_id, file_name, page_label)`. -/
def claimC6Prop (docs : List Doc) : Prop :=
  (cleanAndNormalize docs).Pairwise (fun a b => tripleLeB (tupleKey a) (tupleKey b) = true)

/-- Replace every maximal whitespace run — wherever it sits — by a
single space, keeping everything else; the transform claim C10's final
clause describes. -/
def collapseRuns : List Char → List Char
  | [] => []
  | c :: cs =>
    if pyIsSpace c then
      match cs with
      | [] => [' ']
      | x :: _ => if pyIsSpace x then collapseRuns cs else ' ' :: collapseRuns cs
    else c :: collapseRuns cs

/-- Claim C10 as stated, for an input batch: one output per input whose
text is the input text with every maximal whitespace run replaced by a
single space (metadata filtered as the code does). -/
def claimC10Prop (docs : List Doc) : Prop :=
  List.Perm (cleanAndNormalize docs)
    (docs.map (fun d => ⟨⟨collapseRuns d.text.data⟩, filterMeta d.metadata⟩))

/-! ### The catalog (`rag_engine/src/group_manager.py`) -/

/-- One file record of a group (`add_file_meta`). -/
structure FileMeta where
  fid : String
  name : String
  path : String
  creationTime : String
  size : Nat
  status : String
deriving DecidableEq

/-- One webpage record of a group (`add_webpage_meta`). -/
structure WebMeta where
  wid : String
  url : String
  creationTime : String
  status : String
deriving DecidableEq

/-- One group entry of the catalog. -/
structure GroupMeta where
  name : String
  description : String
  directory : String
  files : List FileMeta
  webpages : List WebMeta
deriving DecidableEq

/-- The catalog `groups_meta`: a Python dict keyed by group id, in
insertion order. -/
abbrev Catalog := List (String × GroupMeta)

/-- `GroupManager.get_group_by_id` (the metadata part). -/
def getGroupById (c : Catalog) (gid : String) : Option GroupMeta :=
  (c.find? (fun p => p.1 == gid)).map (fun p => p.2)

/-- Replace the entry of `gid` (mutation of `groups_meta[group_id]`). -/
def updateGroup (c : Catalog) (gid : String) (g : GroupMeta) : Catalog :=
  c.map (fun p => if p.1 == gid then (p.1, g) else p)

/-- `del groups_meta[group_id]`. -/
def removeGroup (c : Catalog) (gid : String) : Catalog :=
  c.filter (fun p => !(p.1 == gid))

/-- `GroupManager.get_file_by_name`. -/
def getFileByName (c : Catalog) (gid fname : String) : Option FileMeta :=
  match getGroupById c gid with
  | none => none
  | some g => g.files.find? (fun f => f.name == fname)

/-- `GroupManager.get_file_by_id`. -/
def getFileById (c : Catalog) (gid fid : String) : Option FileMeta :=
  match getGroupById c gid with
  | none => none
  | some g => g.files.find? (fun f => f.fid == fid)

/-- `GroupManager.get_webpage_by_url`. -/
def getWebpageByUrl (c : Catalog) (gid url : String) : Option WebMeta :=
  match getGroupById c gid with
  | none => none
  | some g => g.webpages.find? (fun w => w.url == url)

/-- `GroupManager.add_file_meta` with the default
`storage_path=None` (so the storage path is the file name) and default
status `"processing"`; `newId` models the fresh `uuid4`, `now` the
timestamp. -/
def addFileMeta (c : Catalog) (gid fname : String) (size : Nat) (newId now : String) :
    Catalog × Option FileMeta :=
  match getGroupById c gid with
  | none => (c, none)
  | some g =>
    let fm : FileMeta := ⟨newId, fname, fname, now, size, "processing"⟩
    (updateGroup c gid { g with files := g.files ++ [fm] }, some fm)

/-- `GroupManager.add_webpage_meta` with default status `"processing"`. -/
def addWebpageMeta (c : Catalog) (gid url newId now : String) :
    Catalog × Option WebMeta :=
  match getGroupById c gid with
  | none => (c, none)
  | some g =>
    let wm : WebMeta := ⟨newId, url, now, "processing"⟩
    (updateGroup c gid { g with webpages := g.webpages ++ [wm] }, some wm)

/-- `GroupManager.remove_file_meta`: drop the record with that id and
report whether anything was dropped. -/
def removeFileMeta (c : Catalog) (gid fid : String) : Catalog × Bool :=
  match getGroupById c gid with
  | none => (c, false)
  | some g =>
    let fs := g.files.filter (fun f => !(f.fid == fid))
    (updateGroup c gid { g with files := fs }, fs.length < g.files.length)

/-- `GroupManager.remove_webpage_meta`. -/
def removeWebpageMeta (c : Catalog) (gid wid : String) : Catalog × Bool :=
  match getGroupById c gid with
  | none => (c, false)
  | some g =>
    let ws := g.webpages.filter (fun w => !(w.wid == wid))
    (updateGroup c gid { g with webpages := ws }, ws.length < g.webpages.length)

/-! ### The vector store (consumed Chroma interface) and pipeline state -/

/-- A vector-store entry, reduced to its metadata (all the pipeline's
deletes and gets filter on metadata only). -/
abbrev VEntry := Metadata

/-- Whether an entry matches a `where={key: val}` clause. -/
def whereMatch (e : VEntry) (key val : String) : Bool :=
  lookupMeta e key == some val

/-- `chroma_collection.delete(where={key: val})` on an honest store. -/
def chromaDeleteWhere (vec : List VEntry) (key val : String) : List VEntry :=
  vec.filter (fun e => !(whereMatch e key val))

/-- `len(chroma_collection.get(where={key: val})["ids"])`. -/
def countWhere (vec : List VEntry) (key val : String) : Nat :=
  (vec.filter (fun e => whereMatch e key val)).length

/-- The world the pipeline mutates: vector store, set of physical group
directories, set of physical file paths, and the catalog. -/
structure PipeState where
  vec : List VEntry
  dirs : List String
  fsFiles : List String
  catalog : Catalog
deriving DecidableEq

/-! ### `RAGPipeline.delete_group` and
`GroupManager.delete_group_metadata_and_storage` -/

/-- Outcomes of the external calls `delete_group` makes: whether the
Chroma delete raises, what the store holds after a non-raising delete
call returns (an honest store removes every matching entry; a buggy one
may not — the re-query verification step exists for that case), and
whether `shutil.rmtree` raises. -/
structure DeleteGroupEnv where
  deleteRaises : Bool
  storeAfterDelete : List VEntry → List VEntry
  rmtreeRaises : Bool

/-- `GroupManager.delete_group_metadata_and_storage`: remove the
physical directory first (aborting, catalog untouched, if `rmtree`
fails), then the catalog entry. -/
def deleteGroupMetadataAndStorage (rmtreeRaises : Bool) (st : PipeState) (gid : String) :
    Bool × PipeState :=
  match getGroupById st.catalog gid with
  | none => (true, st)
  | some g =>
    if st.dirs.contains g.directory then
      if rmtreeRaises then (false, st)
      else
        (true, { st with dirs := st.dirs.filter (fun d => !(d == g.directory)),
                         catalog := removeGroup st.catalog gid })
    else (true, { st with catalog := removeGroup st.catalog gid })

/-- `RAGPipeline.delete_group`: missing group is an idempotent success;
otherwise delete the group's vector-store entries, verify by re-query
that zero remain (abort returning `False` on a raise or a non-zero
residual), and only then delete directory and catalog entry. -/
def deleteGroup (env : DeleteGroupEnv) (st : PipeState) (gid : String) :
    Bool × PipeState :=
  match getGroupById st.catalog gid with
  | none => (true, st)
  | some _ =>
    if env.deleteRaises then (false, st)
    else
      let st' := { st with vec := env.storeAfterDelete st.vec }
      if countWhere st'.vec "group_id" gid ≠ 0 then (false, st')
      else deleteGroupMetadataAndStorage env.rmtreeRaises st' gid

/-! ### `RAGPipeline.add_files_to_group` / `add_urls_to_group`
(per-item catalog effect) -/

/-- One source file handed to `add_files_to_group`: whether the source
path exists, its base name, whether the physical copy succeeds, its
size, and the fresh uuid/timestamp the run would allocate. -/
structure SourceFile where
  srcExists : Bool
  name : String
  copyOk : Bool
  size : Nat
  newId : String
  now : String

/-- The catalog effect of one iteration of the `add_files_to_group`
loop: skip missing sources, skip (no-op) names already present in the
group, skip failed copies, otherwise append a `processing` record. -/
def addFileStep (c : Catalog) (gid : String) (s : SourceFile) :
    Catalog × Option FileMeta :=
  if !s.srcExists then (c, none)
  else
    match getFileByName c gid s.name with
    | some _ => (c, none)
    | none =>
      if !s.copyOk then (c, none)
      else addFileMeta c gid s.name s.size s.newId s.now

/-- One URL handed to `add_urls_to_group`. -/
structure SourceUrl where
  url : String
  newId : String
  now : String

/-- The catalog effect of one iteration of the `add_urls_to_group`
loop: skip (no-op) URLs already present in the group, otherwise append
a `processing` record. -/
def addUrlStep (c : Catalog) (gid : String) (s : SourceUrl) :
    Catalog × Option WebMeta :=
  match getWebpageByUrl c gid s.url with
  | some _ => (c, none)
  | none => addWebpageMeta c gid s.url s.newId s.now

/-! ### `RAGPipeline.delete_files_from_group` /
`delete_webpages_from_group` -/

/-- Outcomes of the external calls made while deleting one file id:
whether the Chroma delete raises and whether `os.remove` raises. -/
structure FileDelOutcome where
  chromaRaises : Bool
  removeRaises : Bool

/-- The body of the `delete_files_from_group` loop for one id: a
missing record is skipped (not a failure); otherwise delete vector
entries by `file_id`, delete the physical file if present, remove the
catalog record; an exception anywhere in the `try` marks failure for
this id only. -/
def fileDelStep (env : String → FileDelOutcome) (gid : String) (st : PipeState)
    (fid : String) : Bool × PipeState :=
  match getFileById st.catalog gid fid with
  | none => (true, st)
  | some fm =>
    if (env fid).chromaRaises then (false, st)
    else
      let st1 := { st with vec := chromaDeleteWhere st.vec "file_id" fid }
      match getGroupById st1.catalog gid with
      | none => (true, { st1 with catalog := (removeFileMeta st1.catalog gid fid).1 })
      | some g =>
        let path := g.directory ++ "/" ++ fm.path
        if st1.fsFiles.contains path then
          if (env fid).removeRaises then (false, st1)
          else
            let st2 := { st1 with fsFiles := st1.fsFiles.filter (fun q => !(q == path)) }
            (true, { st2 with catalog := (removeFileMeta st2.catalog gid fid).1 })
        else (true, { st1 with catalog := (removeFileMeta st1.catalog gid fid).1 })

/-- The `delete_files_from_group` loop, threading
`all_success = all_success and ok` through the ids. -/
def delFilesGo (env : String → FileDelOutcome) (gid : String) :
    List String → Bool × PipeState → Bool × PipeState
  | [], acc => acc
  | fid :: rest, acc =>
    let r := fileDelStep env gid acc.2 fid
    delFilesGo env gid rest (acc.1 && r.1, r.2)

/-- `RAGPipeline.delete_files_from_group`. -/
def deleteFilesFromGroup (env : String → FileDelOutcome) (st : PipeState)
    (gid : String) (ids : List String) : Bool × PipeState :=
  delFilesGo env gid ids (true, st)

/-- The body of the `delete_webpages_from_group` loop for one id
(`env wid` tells whether the Chroma delete raises for that id). -/
def webDelStep (env : String → Bool) (gid : String) (st : PipeState)
    (wid : String) : Bool × PipeState :=
  if env wid then (false, st)
  else
    (true, { st with vec := chromaDeleteWhere st.vec "webpage_id" wid,
                     catalog := (removeWebpageMeta st.catalog gid wid).1 })

/-- The `delete_webpages_from_group` loop. -/
def delWebsGo (env : String → Bool) (gid : String) :
    List String → Bool × PipeState → Bool × PipeState
  | [], acc => acc
  | wid :: rest, acc =>
    let r := webDelStep env gid acc.2 wid
    delWebsGo env gid rest (acc.1 && r.1, r.2)

/-- `RAGPipeline.delete_webpages_from_group`. -/
def deleteWebpagesFromGroup (env : String → Bool) (st : PipeState)
    (gid : String) (ids : List String) : Bool × PipeState :=
  delWebsGo env gid ids (true, st)

/-! ### PDF chunking (`document_parsers/pdf_parser.py` with
`document_parsers/base_parser.py`) -/

/-- What `page.extract_text()` yields for one page: a raised exception
(caught and logged per page), a falsy `None`, or a text. -/
inductive PageResult where
  | err : PageResult
  | noText : PageResult
  | text : String → PageResult
deriving DecidableEq

/-- A `DocumentChunk` as `base_parser.py` defines it (the fields the
pdf parser populates). -/
structure DocumentChunk where
  text : String
  metadata : Metadata
  chunkId : String
  pageNumber : Nat
  chunkType : String
deriving DecidableEq

/-- Python `text.split("\n")`: split at every newline, keeping empty
pieces. -/
def splitLinesNl : List Char → List (List Char)
  | [] => [[]]
  | '\n' :: rest => [] :: splitLinesNl rest
  | c :: rest =>
    match splitLinesNl rest with
    | [] => [[c]]
    | l :: ls => (c :: l) :: ls

/-- Python `"\n".join(ws)`. -/
def joinNl : List (List Char) → List Char
  | [] => []
  | w :: ws =>
    match ws with
    | [] => w
    | _ :: _ => w ++ '\n' :: joinNl ws

/-- `DocumentParser._clean_text`: newline normalization, per-line
whitespace collapse, dropping lines that become empty. -/
def cleanText (s : String) : String :=
  if s = "" then ""
  else
    ⟨joinNl ((((splitLinesNl (normalizeNewlines s.data)).map
        (fun ln => joinSp (pyWords ln))).filter (fun ln => !ln.isEmpty)))⟩

/-- The gate `if page_text and len(page_text.strip()) >= self.min_page_text_length`. -/
def pdfPageQualifies (minLen : Nat) (s : String) : Bool :=
  !(s == "") && decide (minLen ≤ (pyStrip s.data).length)

/-- The chunk built for a qualifying page: `_create_chunk_metadata`
copies the base metadata and then writes the chunk-specific keys (all
keys are distinct here, so the merge is a plain append). -/
def mkPdfChunk (fileName : String) (pageNum : Nat) (s : String) : DocumentChunk :=
  { text := cleanText s,
    metadata := [("file_name", fileName), ("format_type", "pdf"),
                 ("page_label", toString pageNum), ("page_number", toString pageNum),
                 ("chunk_type", "page")],
    chunkId := "page_" ++ toString pageNum,
    pageNumber := pageNum,
    chunkType := "page" }

/-- The `for page_num, page in enumerate(pdf.pages, 1)` loop of
`PDFParser._extract_chunks_pdfplumber`, carrying the 1-based page
counter. -/
def pdfChunksGo (minLen : Nat) (fileName : String) :
    Nat → List PageResult → List DocumentChunk
  | _, [] => []
  | pageNum, p :: rest =>
    (match p with
     | .text s => if pdfPageQualifies minLen s then [mkPdfChunk fileName pageNum s] else []
     | _ => []) ++ pdfChunksGo minLen fileName (pageNum + 1) rest

/-- `PDFParser._extract_chunks_pdfplumber` over the pages of an opened
pdf. -/
def extractChunksPdfplumber (minLen : Nat) (fileName : String)
    (pages : List PageResult) : List DocumentChunk :=
  pdfChunksGo minLen fileName 1 pages

/-! ### Format detection (`document_parsers/format_detector.py`) -/

/-- A file as the detector can observe it: lowercased extension
(`Path(file_path).suffix.lower()`), leading bytes, whether opening and
reading it raises, the ZIP member list (`None` when the file is not a
readable ZIP archive), and the `mimetypes.guess_type` result. -/
structure FileOnDisk where
  ext : String
  header : List Nat
  openRaises : Bool
  zipEntries : Option (List String)
  mimeGuess : Option String

/-- `FormatDetector.SUPPORTED_FORMATS`, in order. -/
def SUPPORTED_FORMATS : List (String × String) :=
  [(".pdf", "pdf"), (".docx", "docx"), (".doc", "doc"),
   (".pptx", "pptx"), (".ppt", "ppt"), (".xlsx", "xlsx"), (".xls", "xls"),
   (".epub", "epub"), (".html", "html"), (".htm", "html"),
   (".md", "markdown"), (".markdown", "markdown"), (".txt", "text")]

/-- `FormatDetector.FILE_SIGNATURES`, in insertion order.  `%PDF` is
`[37, 80, 68, 70]`, `PK\x03\x04` is `[80, 75, 3, 4]`. -/
def FILE_SIGNATURES : List (List Nat × String) :=
  [([37, 80, 68, 70], "pdf"),
   ([80, 75, 3, 4], "office_zip"),
   ([208, 207, 17, 224, 161, 177, 26, 225], "office_ole"),
   (strBytes "<!DOCTYPE html", "html"),
   (strBytes "<html", "html"),
   (strBytes "<HTML", "html")]

/-- `header.startswith(signature)`. -/
def startsWithBytes (sig hdr : List Nat) : Bool := sig.isPrefixOf hdr

/-- Whether `pat` occurs as a contiguous subsequence of `l` (Python's
`pat in s` on strings). -/
def containsSeq (pat : List Char) : List Char → Bool
  | [] => pat.isEmpty
  | c :: rest => pat.isPrefixOf (c :: rest) || containsSeq pat rest

/-- `FormatDetector._detect_office_zip_format`.  The quirky
`'ppt/slides/' in str(file_list)` test holds exactly when some member
name contains `ppt/slides/` (the `str(...)` separators `', '` and the
quotes cannot take part in a match of that pattern). -/
def detectOfficeZipFormat (f : FileOnDisk) : Option String :=
  match f.zipEntries with
  | none => none
  | some entries =>
    if entries.contains "word/document.xml" then some "docx"
    else if entries.contains "ppt/presentation.xml"
        || entries.any (fun e => containsSeq "ppt/slides/".data e.data) then some "pptx"
    else if entries.contains "xl/workbook.xml" then some "xlsx"
    else if entries.contains "META-INF/container.xml" then some "epub"
    else none

/-- `FormatDetector._detect_office_ole_format`: extension only. -/
def detectOfficeOleFormat (f : FileOnDisk) : Option String :=
  if f.ext == ".doc" then some "doc"
  else if f.ext == ".ppt" then some "ppt"
  else if f.ext == ".xls" then some "xls"
  else none

/-- `FormatDetector._verify_office_format`. -/
def verifyOfficeFormat (f : FileOnDisk) (expected : String) : String :=
  if f.openRaises then expected
  else if startsWithBytes [80, 75, 3, 4] f.header then
    (detectOfficeZipFormat f).getD expected
  else if startsWithBytes [208, 207, 17, 224] f.header then
    (detectOfficeOleFormat f).getD expected
  else expected

/-- `FormatDetector._mime_to_format`. -/
def mimeToFormat (m : String) : Option String :=
  ((([("application/pdf", "pdf"),
      ("application/vnd.openxmlformats-officedocument.wordprocessingml.document", "docx"),
      ("application/msword", "doc"),
      ("application/vnd.openxmlformats-officedocument.presentationml.presentation", "pptx"),
      ("application/vnd.ms-powerpoint", "ppt"),
      ("application/vnd.openxmlformats-officedocument.spreadsheetml.sheet", "xlsx"),
      ("application/vnd.ms-excel", "xls"),
      ("application/epub+zip", "epub"),
      ("text/html", "html"),
      ("text/markdown", "markdown"),
      ("text/plain", "text")] : List (String × String)).find?
    (fun p => p.1 == m)).map (fun p => p.2))

/-- The first matching entry of the `FILE_SIGNATURES` scan. -/
def findSignature (hdr : List Nat) : Option String :=
  (FILE_SIGNATURES.find? (fun p => startsWithBytes p.1 hdr)).map (fun p => p.2)

/-- `FormatDetector.detect_format`: extension table first (with office
verification for the ambiguous entries), then magic bytes — where a
matched `office_zip`/`office_ole` signature returns the ZIP/OLE
resolution directly, even when that is `None` — and MIME guessing only
when no signature matched or the read raised. -/
def detectFormat (f : FileOnDisk) : Option String :=
  match (SUPPORTED_FORMATS.find? (fun p => p.1 == f.ext)).map (fun p => p.2) with
  | some fmt =>
    if fmt == "docx" || fmt == "pptx" || fmt == "xlsx"
        || f.ext == ".doc" || f.ext == ".ppt" || f.ext == ".xls" then
      some (verifyOfficeFormat f fmt)
    else some fmt
  | none =>
    let viaHeader : Option (Option String) :=
      if f.openRaises then none
      else
        match findSignature f.header with
        | some "office_zip" => some (detectOfficeZipFormat f)
        | some "office_ole" => some (detectOfficeOleFormat f)
        | some fmt => some (some fmt)
        | none => none
    match viaHeader with
    | some r => r
    | none =>
      match f.mimeGuess with
      | some m => mimeToFormat m
      | none => none

/-! ### Order lemmas for the Python string / tuple comparisons -/

theorem charListLt_irrefl : ∀ l : List Char, charListLt l l = false
  | [] => rfl
  | c :: cs => by simp [charListLt, charListLt_irrefl cs]

theorem charListLt_trans : ∀ a b c : List Char,
    charListLt a b = true → charListLt b c = true → charListLt a c = true
  | [], [], _, h₁, _ => by simp [charListLt] at h₁
  | [], _ :: _, [], _, h₂ => by simp [charListLt] at h₂
  | [], _ :: _, _ :: _, _, _ => by simp [charListLt]
  | _ :: _, [], _, h₁, _ => by simp [charListLt] at h₁
  | _ :: _, _ :: _, [], _, h₂ => by simp [charListLt] at h₂
  | x :: xs, y :: ys, z :: zs, h₁, h₂ => by
    simp only [charListLt] at h₁ h₂ ⊢
    by_cases hxy : x.toNat < y.toNat
    · by_cases hyz : y.toNat < z.toNat
      · rw [if_pos (show x.toNat < z.toNat by omega)]
      · rw [if_neg hyz] at h₂
        by_cases hzy : z.toNat < y.toNat
        · rw [if_pos hzy] at h₂
          exact absurd h₂ (by simp)
        · rw [if_neg hzy] at h₂
          rw [if_pos (show x.toNat < z.toNat by omega)]
    · rw [if_neg hxy] at h₁
      by_cases hyx : y.toNat < x.toNat
      · rw [if_pos hyx] at h₁
        exact absurd h₁ (by simp)
      · rw [if_neg hyx] at h₁
        by_cases hyz : y.toNat < z.toNat
        · rw [if_pos (show x.toNat < z.toNat by omega)]
        · rw [if_neg hyz] at h₂
          by_cases hzy : z.toNat < y.toNat
          · rw [if_pos hzy] at h₂
            exact absurd h₂ (by simp)
          · rw [if_neg hzy] at h₂
            rw [if_neg (show ¬x.toNat < z.toNat by omega),
                if_neg (show ¬z.toNat < x.toNat by omega)]
            exact charListLt_trans xs ys zs h₁ h₂

theorem charListLt_connex : ∀ a b : List Char,
    charListLt a b = false → charListLt b a = false → a = b
  | [], [], _, _ => rfl
  | [], _ :: _, h₁, _ => by simp [charListLt] at h₁
  | _ :: _, [], _, h₂ => by simp [charListLt] at h₂
  | x :: xs, y :: ys, h₁, h₂ => by
    simp only [charListLt] at h₁ h₂
    by_cases hxy : x.toNat < y.toNat
    · rw [if_pos hxy] at h₁
      exact absurd h₁ (by simp)
    · rw [if_neg hxy] at h₁
      by_cases hyx : y.toNat < x.toNat
      · rw [if_pos hyx] at h₂
        exact absurd h₂ (by simp)
      · rw [if_neg hyx] at h₁
        rw [if_neg hyx, if_neg hxy] at h₂
        have hn : x.val.toNat = y.val.toNat := by
          have hx : x.toNat = x.val.toNat := rfl
          have hy : y.toNat = y.val.toNat := rfl
          omega
        have hxy' : x = y := Char.ext (UInt32.toNat.inj hn)
        rw [hxy']
        exact congrArg (y :: ·) (charListLt_connex xs ys h₁ h₂)

theorem charListLe_refl (l : List Char) : charListLe l l = true := by
  simp [charListLe, charListLt_irrefl]

theorem charListLe_trans {a b c : List Char}
    (h₁ : charListLe a b = true) (h₂ : charListLe b c = true) :
    charListLe a c = true := by
  simp only [charListLe, Bool.not_eq_true'] at h₁ h₂ ⊢
  cases hca : charListLt c a
  · rfl
  · exfalso
    cases hbc : charListLt b c
    · have hb : b = c := charListLt_connex b c hbc h₂
      subst hb
      rw [hca] at h₁
      exact Bool.noConfusion h₁
    · have := charListLt_trans b c a hbc hca
      rw [this] at h₁
      exact Bool.noConfusion h₁

theorem charListLe_total (a b : List Char) :
    charListLe a b = true ∨ charListLe b a = true := by
  simp only [charListLe, Bool.not_eq_true']
  cases h₁ : charListLt b a
  · exact Or.inl rfl
  · cases h₂ : charListLt a b
    · exact Or.inr rfl
    · have := charListLt_trans a b a h₂ h₁
      rw [charListLt_irrefl] at this
      exact absurd this (by simp)

theorem charListLe_antisymm {a b : List Char}
    (h₁ : charListLe a b = true) (h₂ : charListLe b a = true) : a = b := by
  simp only [charListLe, Bool.not_eq_true'] at h₁ h₂
  exact charListLt_connex a b h₂ h₁

theorem charListLt_of_not_le {a b : List Char}
    (h : charListLe a b = false) : charListLt b a = true := by
  simp only [charListLe, Bool.not_eq_false'] at h
  exact h

theorem strLeB_trans {a b c : String}
    (h₁ : strLeB a b = true) (h₂ : strLeB b c = true) : strLeB a c = true :=
  charListLe_trans h₁ h₂

theorem strLeB_total (a b : String) : strLeB a b = true ∨ strLeB b a = true :=
  charListLe_total a.data b.data

theorem pairLeB_trans {p q r : String × String}
    (h₁ : pairLeB p q = true) (h₂ : pairLeB q r = true) : pairLeB p r = true := by
  unfold pairLeB at h₁ h₂ ⊢
  by_cases hpq : charListLt p.1.data q.1.data = true
  · by_cases hqr : charListLt q.1.data r.1.data = true
    · rw [if_pos (charListLt_trans _ _ _ hpq hqr)]
    · rw [if_neg (by simp_all)] at h₂
      by_cases hrq : charListLt r.1.data q.1.data = true
      · rw [if_pos hrq] at h₂
        exact absurd h₂ (by simp)
      · rw [if_neg (by simp_all)] at h₂
        have he : q.1.data = r.1.data :=
          charListLt_connex _ _ (by simp_all) (by simp_all)
        rw [if_pos (by rw [← he]; exact hpq)]
  · rw [if_neg hpq] at h₁
    by_cases hqp : charListLt q.1.data p.1.data = true
    · rw [if_pos hqp] at h₁
      exact absurd h₁ (by simp)
    · rw [if_neg hqp] at h₁
      have he : p.1.data = q.1.data :=
        charListLt_connex _ _ (by simp_all) (by simp_all)
      by_cases hqr : charListLt q.1.data r.1.data = true
      · rw [if_pos (by rw [he]; exact hqr)]
      · rw [if_neg (by simp_all)] at h₂
        by_cases hrq : charListLt r.1.data q.1.data = true
        · rw [if_pos hrq] at h₂
          exact absurd h₂ (by simp)
        · rw [if_neg (by simp_all)] at h₂
          rw [if_neg (by rw [he]; simp_all), if_neg (by rw [he]; simp_all)]
          exact charListLe_trans h₁ h₂

theorem pairLeB_total (p q : String × String) :
    pairLeB p q = true ∨ pairLeB q p = true := by
  unfold pairLeB
  by_cases hpq : charListLt p.1.data q.1.data = true
  · left
    rw [if_pos hpq]
  · by_cases hqp : charListLt q.1.data p.1.data = true
    · right
      rw [if_pos hqp]
    · rw [if_neg hpq, if_neg hqp, if_neg hqp, if_neg hpq]
      exact charListLe_total p.2.data q.2.data

theorem pairLeB_antisymm {p q : String × String}
    (h₁ : pairLeB p q = true) (h₂ : pairLeB q p = true) : p = q := by
  unfold pairLeB at h₁ h₂
  by_cases hpq : charListLt p.1.data q.1.data = true
  · rw [if_neg (by
      cases h : charListLt q.1.data p.1.data
      · simp
      · have := charListLt_trans _ _ _ hpq h
        rw [charListLt_irrefl] at this
        exact absurd this (by simp)), if_pos hpq] at h₂
    exact absurd h₂ (by simp)
  · rw [if_neg hpq] at h₁
    by_cases hqp : charListLt q.1.data p.1.data = true
    · rw [if_pos hqp] at h₁
      exact absurd h₁ (by simp)
    · rw [if_neg hqp] at h₁
      rw [if_neg hqp, if_neg hpq] at h₂
      have he1 : p.1 = q.1 :=
        String.ext (charListLt_connex _ _ (by simp_all) (by simp_all))
      have he2 : p.2 = q.2 := String.ext (charListLe_antisymm h₁ h₂)
      exact Prod.ext he1 he2

instance : IsTrans (String × String) pairLe := ⟨fun _ _ _ => pairLeB_trans⟩

instance : IsTotal (String × String) pairLe := ⟨fun p q => pairLeB_total p q⟩

instance : IsAntisymm (String × String) pairLe := ⟨fun _ _ => pairLeB_antisymm⟩

theorem keyLeB_trans {p q r : String × String}
    (h₁ : keyLeB p q = true) (h₂ : keyLeB q r = true) : keyLeB p r = true :=
  charListLe_trans h₁ h₂

instance : IsTrans (String × String) keyLe := ⟨fun _ _ _ => keyLeB_trans⟩

instance : IsTotal (String × String) keyLe :=
  ⟨fun p q => charListLe_total p.1.data q.1.data⟩

instance : IsTrans Doc docLe := ⟨fun _ _ _ => strLeB_trans⟩

instance : IsTotal Doc docLe := ⟨fun a b => strLeB_total (docSortKey a) (docSortKey b)⟩

theorem keyLe_of_pairLe {p q : String × String} (h : pairLe p q) : keyLe p q := by
  unfold pairLe pairLeB at h
  unfold keyLe keyLeB
  by_cases hpq : charListLt p.1.data q.1.data = true
  · simp only [charListLe, Bool.not_eq_true']
    cases hqp : charListLt q.1.data p.1.data
    · rfl
    · have := charListLt_trans _ _ _ hpq hqp
      rw [charListLt_irrefl] at this
      exact absurd this (by simp)
  · rw [if_neg hpq] at h
    by_cases hqp : charListLt q.1.data p.1.data = true
    · rw [if_pos hqp] at h
      exact absurd h (by simp)
    · simp only [charListLe, Bool.not_eq_true']
      simp_all

/-! ### Lemmas on the deletion loops -/

theorem delFilesGo_acc (env : String → FileDelOutcome) (gid : String) :
    ∀ (ids : List String) (acc : Bool × PipeState),
      delFilesGo env gid ids acc =
        (acc.1 && (delFilesGo env gid ids (true, acc.2)).1,
         (delFilesGo env gid ids (true, acc.2)).2)
  | [], acc => by simp [delFilesGo]
  | fid :: rest, acc => by
    simp only [delFilesGo, Bool.true_and]
    rw [delFilesGo_acc env gid rest
        ((acc.1 && (fileDelStep env gid acc.2 fid).1), (fileDelStep env gid acc.2 fid).2),
      delFilesGo_acc env gid rest
        ((fileDelStep env gid acc.2 fid).1, (fileDelStep env gid acc.2 fid).2)]
    simp [Bool.and_assoc]

theorem delFilesGo_append (env : String → FileDelOutcome) (gid : String) :
    ∀ (l₁ l₂ : List String) (acc : Bool × PipeState),
      delFilesGo env gid (l₁ ++ l₂) acc = delFilesGo env gid l₂ (delFilesGo env gid l₁ acc)
  | [], _, acc => by simp [delFilesGo]
  | fid :: rest, l₂, acc => by
    simp only [List.cons_append, delFilesGo]
    exact delFilesGo_append env gid rest l₂ _

theorem delWebsGo_acc (env : String → Bool) (gid : String) :
    ∀ (ids : List String) (acc : Bool × PipeState),
      delWebsGo env gid ids acc =
        (acc.1 && (delWebsGo env gid ids (true, acc.2)).1,
         (delWebsGo env gid ids (true, acc.2)).2)
  | [], acc => by simp [delWebsGo]
  | wid :: rest, acc => by
    simp only [delWebsGo, Bool.true_and]
    rw [delWebsGo_acc env gid rest
        ((acc.1 && (webDelStep env gid acc.2 wid).1), (webDelStep env gid acc.2 wid).2),
      delWebsGo_acc env gid rest
        ((webDelStep env gid acc.2 wid).1, (webDelStep env gid acc.2 wid).2)]
    simp [Bool.and_assoc]

theorem delWebsGo_append (env : String → Bool) (gid : String) :
    ∀ (l₁ l₂ : List String) (acc : Bool × PipeState),
      delWebsGo env gid (l₁ ++ l₂) acc = delWebsGo env gid l₂ (delWebsGo env gid l₁ acc)
  | [], _, acc => by simp [delWebsGo]
  | wid :: rest, l₂, acc => by
    simp only [List.cons_append, delWebsGo]
    exact delWebsGo_append env gid rest l₂ _

/-- Claim C9: for every call to `delete_files_from_group` (and
`delete_webpages_from_group`) with a list of ids, a failure while
deleting one id does not stop processing of the remaining ids — the
result on `l₁ ++ l₂` is the result of processing `l₂` from the state
`l₁` left behind, whatever `l₁`'s outcome was — and the call returns a
single boolean that is the conjunction of the per-segment outcomes
(true only when every item succeeded), never a partial-success
structure. -/
theorem claim_C9_per_item_isolation (env : String → FileDelOutcome)
    (wenv : String → Bool) (st st' : PipeState) (gid : String)
    (l₁ l₂ : List String) :
    deleteFilesFromGroup env st gid (l₁ ++ l₂) =
      ((deleteFilesFromGroup env st gid l₁).1 &&
        (deleteFilesFromGroup env (deleteFilesFromGroup env st gid l₁).2 gid l₂).1,
       (deleteFilesFromGroup env (deleteFilesFromGroup env st gid l₁).2 gid l₂).2) ∧
    deleteWebpagesFromGroup wenv st' gid (l₁ ++ l₂) =
      ((deleteWebpagesFromGroup wenv st' gid l₁).1 &&
        (deleteWebpagesFromGroup wenv (deleteWebpagesFromGroup wenv st' gid l₁).2 gid l₂).1,
       (deleteWebpagesFromGroup wenv (deleteWebpagesFromGroup wenv st' gid l₁).2 gid l₂).2) := by
  constructor
  · unfold deleteFilesFromGroup
    rw [delFilesGo_append env gid l₁ l₂ (true, st),
      delFilesGo_acc env gid l₂ (delFilesGo env gid l₁ (true, st))]
  · unfold deleteWebpagesFromGroup
    rw [delWebsGo_append wenv gid l₁ l₂ (true, st'),
      delWebsGo_acc wenv gid l₂ (delWebsGo wenv gid l₁ (true, st'))]

/-- Claim C1: for a group present in the catalog, `delete_group` (i)
only succeeds with zero vector-store entries left for that `group_id`
(the delete is verified by re-query); (ii) returns `False` with the
whole state untouched when the vector-store delete raises; (iii)
returns `False` with directory and catalog entry untouched when the
verification finds a non-zero residual; (iv) returns `False` with the
catalog entry (and directory) untouched when the directory removal
fails; and (v) removes the directory before the catalog entry — the
catalog entry is never gone while the directory survives. -/
theorem claim_C1_delete_group_protocol
    (env : DeleteGroupEnv) (st : PipeState) (gid : String) (g : GroupMeta)
    (hg : getGroupById st.catalog gid = some g) :
    ((deleteGroup env st gid).1 = true →
        countWhere (deleteGroup env st gid).2.vec "group_id" gid = 0) ∧
    (env.deleteRaises = true → deleteGroup env st gid = (false, st)) ∧
    (env.deleteRaises = false →
      countWhere (env.storeAfterDelete st.vec) "group_id" gid ≠ 0 →
        (deleteGroup env st gid).1 = false ∧
        (deleteGroup env st gid).2.dirs = st.dirs ∧
        (deleteGroup env st gid).2.catalog = st.catalog) ∧
    (env.deleteRaises = false → st.dirs.contains g.directory = true →
      env.rmtreeRaises = true →
        (deleteGroup env st gid).1 = false ∧
        (deleteGroup env st gid).2.catalog = st.catalog ∧
        (deleteGroup env st gid).2.dirs = st.dirs) ∧
    (getGroupById (deleteGroup env st gid).2.catalog gid = none →
        (deleteGroup env st gid).2.dirs.contains g.directory = false) := by
  by_cases hr : env.deleteRaises = true
  · refine ⟨?_, ?_, ?_, ?_, ?_⟩
    · intro h
      simp [deleteGroup, hg, hr] at h
    · intro _
      simp [deleteGroup, hg, hr]
    · intro hf
      rw [hr] at hf
      exact absurd hf (by simp)
    · intro hf
      rw [hr] at hf
      exact absurd hf (by simp)
    · intro h
      simp [deleteGroup, hg, hr] at h
  · have hr' : env.deleteRaises = false := by
      cases h : env.deleteRaises
      · rfl
      · exact absurd h hr
    by_cases hc : countWhere (env.storeAfterDelete st.vec) "group_id" gid = 0
    · have hg' : getGroupById ({ st with vec := env.storeAfterDelete st.vec } : PipeState).catalog gid = some g := hg
      by_cases hd : st.dirs.contains g.directory = true
      · have hdm : g.directory ∈ st.dirs := by simpa using hd
        by_cases hrm : env.rmtreeRaises = true
        · have hres : deleteGroup env st gid =
              (false, { st with vec := env.storeAfterDelete st.vec }) := by
            simp [deleteGroup, hg, hr', hc, deleteGroupMetadataAndStorage, hg', hdm, hrm]
          refine ⟨?_, ?_, ?_, ?_, ?_⟩
          · intro h
            rw [hres] at h
            exact absurd h (by simp)
          · intro h
            exact absurd h hr
          · intro _ h
            exact absurd hc h
          · intro _ _ _
            rw [hres]
            exact ⟨rfl, rfl, rfl⟩
          · intro h
            rw [hres] at h
            rw [h] at hg
            exact absurd hg (by simp)
        · have hrm' : env.rmtreeRaises = false := by
            cases h : env.rmtreeRaises
            · rfl
            · exact absurd h hrm
          have hres : deleteGroup env st gid =
              (true, { st with vec := env.storeAfterDelete st.vec,
                               dirs := st.dirs.filter (fun d => !(d == g.directory)),
                               catalog := removeGroup st.catalog gid }) := by
            simp [deleteGroup, hg, hr', hc, deleteGroupMetadataAndStorage, hg', hdm, hrm']
          refine ⟨?_, ?_, ?_, ?_, ?_⟩
          · intro _
            rw [hres]
            exact hc
          · intro h
            exact absurd h hr
          · intro _ h
            exact absurd hc h
          · intro _ _ h
            exact absurd h (by rw [hrm']; exact (Bool.noConfusion ·))
          · intro _
            rw [hres]
            simp
      · have hdm : g.directory ∉ st.dirs := by simpa using hd
        have hres : deleteGroup env st gid =
            (true, { st with vec := env.storeAfterDelete st.vec,
                             catalog := removeGroup st.catalog gid }) := by
          simp [deleteGroup, hg, hr', hc, deleteGroupMetadataAndStorage, hg', hdm]
        refine ⟨?_, ?_, ?_, ?_, ?_⟩
        · intro _
          rw [hres]
          exact hc
        · intro h
          exact absurd h hr
        · intro _ h
          exact absurd hc h
        · intro _ h
          exact absurd h hd
        · intro _
          rw [hres]
          simp only
          cases h : st.dirs.contains g.directory
          · rfl
          · exact absurd h hd
    · have hres : deleteGroup env st gid =
          (false, { st with vec := env.storeAfterDelete st.vec }) := by
        simp [deleteGroup, hg, hr', hc]
      refine ⟨?_, ?_, ?_, ?_, ?_⟩
      · intro h
        rw [hres] at h
        exact absurd h (by simp)
      · intro h
        exact absurd h hr
      · intro _ _
        rw [hres]
        exact ⟨rfl, rfl, rfl⟩
      · intro _ _ _
        rw [hres]
        exact ⟨rfl, rfl, rfl⟩
      · intro h
        rw [hres] at h
        rw [h] at hg
        exact absurd hg (by simp)

/-- Witness for claim C1 at a concrete catalog of one group: a raising
vector-store delete aborts `delete_group` with the whole state
untouched. -/
theorem claim_C1_witness :
    getGroupById [("g0", GroupMeta.mk "astronomy" "" "dir0" [] [])] "g0" =
      some (GroupMeta.mk "astronomy" "" "dir0" [] []) ∧
    deleteGroup (DeleteGroupEnv.mk true (fun v => v) false)
        (PipeState.mk [[("group_id", "g0")]] ["dir0"] []
          [("g0", GroupMeta.mk "astronomy" "" "dir0" [] [])]) "g0" =
      (false,
       PipeState.mk [[("group_id", "g0")]] ["dir0"] []
          [("g0", GroupMeta.mk "astronomy" "" "dir0" [] [])]) :=
  ⟨rfl,
   (claim_C1_delete_group_protocol (DeleteGroupEnv.mk true (fun v => v) false)
      (PipeState.mk [[("group_id", "g0")]] ["dir0"] []
        [("g0", GroupMeta.mk "astronomy" "" "dir0" [] [])]) "g0"
      (GroupMeta.mk "astronomy" "" "dir0" [] []) rfl).2.1 rfl⟩

/-- Claim C3: adding a file whose name already exists in the group (or
a webpage whose URL already exists in the group) is rejected as a no-op
skip — the catalog is unchanged and no record is returned, so no second
record is created and the existing record is not overwritten. -/
theorem claim_C3_duplicate_noop (c : Catalog) (gid : String)
    (s : SourceFile) (u : SourceUrl) (fm : FileMeta) (wm : WebMeta)
    (hf : getFileByName c gid s.name = some fm)
    (hw : getWebpageByUrl c gid u.url = some wm) :
    addFileStep c gid s = (c, none) ∧ addUrlStep c gid u = (c, none) := by
  constructor
  · cases h : s.srcExists <;> simp [addFileStep, hf, h]
  · simp [addUrlStep, hw]

/-- Witness for claim C3: a group already holding `a.txt` and
`http://u` skips a second add of either. -/
theorem claim_C3_witness :
    getFileByName
        [("g0", GroupMeta.mk "astro" "" "dir0"
            [FileMeta.mk "f1" "a.txt" "a.txt" "t" 3 "completed"]
            [WebMeta.mk "w1" "http://u" "t" "completed"])] "g0" "a.txt" =
      some (FileMeta.mk "f1" "a.txt" "a.txt" "t" 3 "completed") ∧
    getWebpageByUrl
        [("g0", GroupMeta.mk "astro" "" "dir0"
            [FileMeta.mk "f1" "a.txt" "a.txt" "t" 3 "completed"]
            [WebMeta.mk "w1" "http://u" "t" "completed"])] "g0" "http://u" =
      some (WebMeta.mk "w1" "http://u" "t" "completed") ∧
    addFileStep
        [("g0", GroupMeta.mk "astro" "" "dir0"
            [FileMeta.mk "f1" "a.txt" "a.txt" "t" 3 "completed"]
            [WebMeta.mk "w1" "http://u" "t" "completed"])] "g0"
        (SourceFile.mk true "a.txt" true 7 "f2" "t2") =
      ([("g0", GroupMeta.mk "astro" "" "dir0"
            [FileMeta.mk "f1" "a.txt" "a.txt" "t" 3 "completed"]
            [WebMeta.mk "w1" "http://u" "t" "completed"])], none) :=
  ⟨rfl, rfl,
   (claim_C3_duplicate_noop
      [("g0", GroupMeta.mk "astro" "" "dir0"
          [FileMeta.mk "f1" "a.txt" "a.txt" "t" 3 "completed"]
          [WebMeta.mk "w1" "http://u" "t" "completed"])] "g0"
      (SourceFile.mk true "a.txt" true 7 "f2" "t2")
      (SourceUrl.mk "http://u" "w2" "t2")
      (FileMeta.mk "f1" "a.txt" "a.txt" "t" 3 "completed")
      (WebMeta.mk "w1" "http://u" "t" "completed") rfl rfl).1⟩

/-- Keys surviving the `_clean_and_normalize` dict comprehension come
from `keys_to_keep`. -/
theorem filterMeta_keys {md : Metadata} {k v : String}
    (h : (k, v) ∈ filterMeta md) : k ∈ keysToKeep := by
  unfold filterMeta at h
  rw [List.mem_filterMap] at h
  obtain ⟨a, ha, he⟩ := h
  cases hl : lookupMeta md a with
  | none => rw [hl] at he; simp at he
  | some w =>
    rw [hl] at he
    simp only [Option.map_some', Option.some.injEq, Prod.mk.injEq] at he
    rw [← he.1]
    exact ha

/-- Claim C5: every metadata key of every document returned by
`_clean_and_normalize` lies in the allow-list
`{file_name, page_label, file_id, webpage_id, source_url, group_id}`;
everything else has been dropped. -/
theorem claim_C5_metadata_allowlist (docs : List Doc) (d : Doc)
    (hd : d ∈ cleanAndNormalize docs) (k v : String)
    (hkv : (k, v) ∈ d.metadata) :
    k ∈ ["file_name", "page_label", "file_id", "webpage_id", "source_url", "group_id"] := by
  have hd' : d ∈ docs.map cleanDoc :=
    ((List.perm_insertionSort docLe (docs.map cleanDoc)).mem_iff).mp hd
  obtain ⟨d₀, _, rfl⟩ := List.mem_map.mp hd'
  have hk : k ∈ keysToKeep := filterMeta_keys hkv
  simpa [keysToKeep, STABLE_METADATA_KEYS] using hk

/-- Witness for claim C5 on a document carrying a junk key: the junk
key is dropped and the surviving key is in the allow-list. -/
theorem claim_C5_witness :
    Doc.mk "t" [("file_name", "a"), ("group_id", "g")] ∈
      cleanAndNormalize [Doc.mk "t" [("junk", "j"), ("group_id", "g"), ("file_name", "a")]] ∧
    ("group_id", "g") ∈ (Doc.mk "t" [("file_name", "a"), ("group_id", "g")]).metadata ∧
    "group_id" ∈ ["file_name", "page_label", "file_id", "webpage_id", "source_url", "group_id"] :=
  ⟨by decide, by decide,
   claim_C5_metadata_allowlist
     [Doc.mk "t" [("junk", "j"), ("group_id", "g"), ("file_name", "a")]]
     (Doc.mk "t" [("file_name", "a"), ("group_id", "g")]) (by decide)
     "group_id" "g" (by decide)⟩

/-- Claim C8: a file whose extension is outside the supported table but
whose first bytes are the ZIP signature `PK\x03\x04` and whose archive
contains `word/document.xml` is detected as `docx`. -/
theorem claim_C8_renamed_docx (f : FileOnDisk) (entries : List String)
    (hext : SUPPORTED_FORMATS.find? (fun p => p.1 == f.ext) = none)
    (hopen : f.openRaises = false)
    (hhdr : startsWithBytes [80, 75, 3, 4] f.header = true)
    (hz : f.zipEntries = some entries)
    (hdoc : entries.contains "word/document.xml" = true) :
    detectFormat f = some "docx" := by
  obtain ⟨t, ht⟩ : ∃ t, [80, 75, 3, 4] ++ t = f.header := by
    unfold startsWithBytes at hhdr
    exact List.isPrefixOf_iff_prefix.mp hhdr
  have hsig : findSignature f.header = some "office_zip" := by
    rw [← ht]
    simp [findSignature, FILE_SIGNATURES, List.find?, startsWithBytes, List.isPrefixOf]
  have hdm : "word/document.xml" ∈ entries := by simpa using hdoc
  have hzip : detectOfficeZipFormat f = some "docx" := by
    simp [detectOfficeZipFormat, hz, hdm]
  unfold detectFormat
  rw [hext]
  simp only [Option.map_none']
  rw [hopen]
  simp only [Bool.false_eq_true, if_false, hsig]
  exact hzip

/-- Witness for claim C8: a `.bin` file with ZIP magic bytes and a
`word/document.xml` member is detected as `docx`. -/
theorem claim_C8_witness :
    SUPPORTED_FORMATS.find?
        (fun p => p.1 == (FileOnDisk.mk ".bin" [80, 75, 3, 4, 0] false
          (some ["[Content_Types].xml", "word/document.xml"]) none).ext) = none ∧
    detectFormat (FileOnDisk.mk ".bin" [80, 75, 3, 4, 0] false
        (some ["[Content_Types].xml", "word/document.xml"]) none) = some "docx" :=
  ⟨by decide,
   claim_C8_renamed_docx
     (FileOnDisk.mk ".bin" [80, 75, 3, 4, 0] false
        (some ["[Content_Types].xml", "word/document.xml"]) none)
     ["[Content_Types].xml", "word/document.xml"]
     (by decide) rfl (by decide) rfl (by decide)⟩

/-! ### Lemmas on the PDF page loop -/

theorem pdfChunksGo_pageNum_ge (minLen : Nat) (fn : String) :
    ∀ (k : Nat) (ps : List PageResult) (c : DocumentChunk),
      c ∈ pdfChunksGo minLen fn k ps → k ≤ c.pageNumber
  | k, [], c, h => by simp [pdfChunksGo] at h
  | k, .err :: rest, c, h => by
    simp only [pdfChunksGo, List.nil_append] at h
    have := pdfChunksGo_pageNum_ge minLen fn (k + 1) rest c h
    omega
  | k, .noText :: rest, c, h => by
    simp only [pdfChunksGo, List.nil_append] at h
    have := pdfChunksGo_pageNum_ge minLen fn (k + 1) rest c h
    omega
  | k, .text s :: rest, c, h => by
    simp only [pdfChunksGo, List.mem_append] at h
    rcases h with h | h
    · by_cases hq : pdfPageQualifies minLen s = true
      · rw [if_pos hq] at h
        simp only [List.mem_singleton] at h
        rw [h]
        exact Nat.le_refl k
      · rw [if_neg hq] at h
        simp at h
    · have := pdfChunksGo_pageNum_ge minLen fn (k + 1) rest c h
      omega

theorem pdfChunksGo_mem (minLen : Nat) (fn : String) :
    ∀ (k : Nat) (ps : List PageResult) (c : DocumentChunk),
      c ∈ pdfChunksGo minLen fn k ps ↔
        ∃ i s, ps[i]? = some (.text s) ∧ pdfPageQualifies minLen s = true ∧
          c = mkPdfChunk fn (k + i) s
  | k, [], c => by simp [pdfChunksGo]
  | k, p :: rest, c => by
    constructor
    · intro h
      cases p with
      | err =>
        simp only [pdfChunksGo, List.nil_append] at h
        obtain ⟨i, s, hi, hq, hc⟩ := (pdfChunksGo_mem minLen fn (k + 1) rest c).mp h
        exact ⟨i + 1, s, by simpa using hi, hq, by rw [hc]; ring_nf⟩
      | noText =>
        simp only [pdfChunksGo, List.nil_append] at h
        obtain ⟨i, s, hi, hq, hc⟩ := (pdfChunksGo_mem minLen fn (k + 1) rest c).mp h
        exact ⟨i + 1, s, by simpa using hi, hq, by rw [hc]; ring_nf⟩
      | text s =>
        simp only [pdfChunksGo, List.mem_append] at h
        rcases h with h | h
        · by_cases hq : pdfPageQualifies minLen s = true
          · rw [if_pos hq] at h
            simp only [List.mem_singleton] at h
            exact ⟨0, s, by simp, hq, by simpa using h⟩
          · rw [if_neg hq] at h
            simp at h
        · obtain ⟨i, s', hi, hq, hc⟩ := (pdfChunksGo_mem minLen fn (k + 1) rest c).mp h
          exact ⟨i + 1, s', by simpa using hi, hq, by rw [hc]; ring_nf⟩
    · rintro ⟨i, s, hi, hq, hc⟩
      cases i with
      | zero =>
        simp only [List.getElem?_cons_zero, Option.some.injEq] at hi
        subst hi
        simp only [pdfChunksGo, List.mem_append]
        left
        rw [if_pos hq]
        simp only [List.mem_singleton]
        simpa using hc
      | succ i =>
        simp only [List.getElem?_cons_succ] at hi
        have : c ∈ pdfChunksGo minLen fn (k + 1) rest :=
          (pdfChunksGo_mem minLen fn (k + 1) rest c).mpr
            ⟨i, s, hi, hq, by rw [hc]; ring_nf⟩
        cases p <;> simp only [pdfChunksGo, List.nil_append, List.mem_append] <;>
          first
          | exact this
          | exact Or.inr this

theorem pdfChunksGo_count (minLen : Nat) (fn : String) :
    ∀ (k : Nat) (ps : List PageResult) (i : Nat),
      ((pdfChunksGo minLen fn k ps).filter (fun c => c.pageNumber == k + i)).length =
        (match ps[i]? with
         | some (.text s) => if pdfPageQualifies minLen s = true then 1 else 0
         | _ => 0)
  | k, [], i => by simp [pdfChunksGo]
  | k, p :: rest, 0 => by
    have hrec : ((pdfChunksGo minLen fn (k + 1) rest).filter
        (fun c => c.pageNumber == k + 0)).length = 0 := by
      rw [List.length_eq_zero]
      rw [List.filter_eq_nil_iff]
      intro c hc
      have := pdfChunksGo_pageNum_ge minLen fn (k + 1) rest c hc
      simp only [Nat.add_zero, beq_iff_eq]
      omega
    cases p with
    | err => simpa [pdfChunksGo] using hrec
    | noText => simpa [pdfChunksGo] using hrec
    | text s =>
      by_cases hq : pdfPageQualifies minLen s = true
      · simp only [pdfChunksGo, if_pos hq, List.filter_append, List.length_append, hrec,
          List.getElem?_cons_zero, hq, if_true]
        have htrue : ((mkPdfChunk fn k s).pageNumber == k + 0) = true := by
          simp [mkPdfChunk]
        simp [List.filter_cons, htrue, mkPdfChunk]
      · simp only [pdfChunksGo, if_neg hq, List.filter_append, List.length_append, hrec,
          List.getElem?_cons_zero, List.filter_nil, List.length_nil, Nat.zero_add]
  | k, p :: rest, i + 1 => by
    have hrec := pdfChunksGo_count minLen fn (k + 1) rest i
    have harith : k + 1 + i = k + (i + 1) := by omega
    rw [harith] at hrec
    have hhead : ∀ s, ((if pdfPageQualifies minLen s = true
        then [mkPdfChunk fn k s] else []).filter
          (fun c => c.pageNumber == k + (i + 1))).length = 0 := by
      intro s
      by_cases hq : pdfPageQualifies minLen s = true
      · rw [if_pos hq]
        have hfalse : ((mkPdfChunk fn k s).pageNumber == k + (i + 1)) = false := by
          rw [beq_eq_false_iff_ne]
          show k ≠ k + (i + 1)
          omega
        simp [List.filter_cons, hfalse]
      · rw [if_neg hq]
        simp
    cases p with
    | err => simpa [pdfChunksGo] using hrec
    | noText => simpa [pdfChunksGo] using hrec
    | text s =>
      simp only [pdfChunksGo, List.filter_append, List.length_append, hhead s, Nat.zero_add,
        hrec, List.getElem?_cons_succ]

/-- Claim C7: in `_extract_chunks_pdfplumber`, (i) a page whose
stripped text is shorter than the configured minimum yields no chunk
for its (1-based) page number; (ii) every produced chunk comes from one
page, records its 1-based page number, and carries that number's
decimal string as `page_label`; (iii) every qualifying page yields
exactly one chunk. -/
theorem claim_C7_pdf_page_chunks (minLen : Nat) (fn : String) (pages : List PageResult) :
    (∀ i s, pages[i]? = some (.text s) → (pyStrip s.data).length < minLen →
      ∀ c ∈ extractChunksPdfplumber minLen fn pages, c.pageNumber ≠ i + 1) ∧
    (∀ c ∈ extractChunksPdfplumber minLen fn pages,
      lookupMeta c.metadata "page_label" = some (toString c.pageNumber) ∧
      1 ≤ c.pageNumber ∧
      ∃ s, pages[c.pageNumber - 1]? = some (.text s) ∧
        pdfPageQualifies minLen s = true ∧ c = mkPdfChunk fn c.pageNumber s) ∧
    (∀ i s, pages[i]? = some (.text s) → pdfPageQualifies minLen s = true →
      ((extractChunksPdfplumber minLen fn pages).filter
        (fun c => c.pageNumber == i + 1)).length = 1) := by
  refine ⟨?_, ?_, ?_⟩
  · intro i s hi hlen c hc hpn
    obtain ⟨j, s', hj, hq, hcj⟩ :=
      (pdfChunksGo_mem minLen fn 1 pages c).mp hc
    have hpj : c.pageNumber = 1 + j := by rw [hcj]; rfl
    have hij : i = j := by omega
    subst hij
    rw [hi] at hj
    simp only [Option.some.injEq, PageResult.text.injEq] at hj
    subst hj
    unfold pdfPageQualifies at hq
    simp only [Bool.and_eq_true, decide_eq_true_eq] at hq
    omega
  · intro c hc
    obtain ⟨j, s, hj, hq, hcj⟩ :=
      (pdfChunksGo_mem minLen fn 1 pages c).mp hc
    have hpj : c.pageNumber = 1 + j := by rw [hcj]; rfl
    refine ⟨?_, by omega, s, ?_, hq, ?_⟩
    · rw [hcj]
      rfl
    · rw [hpj]
      simpa using hj
    · rw [hcj]
      rfl
  · intro i s hi hq
    have := pdfChunksGo_count minLen fn 1 pages i
    rw [hi] at this
    simp only [hq, if_true] at this
    unfold extractChunksPdfplumber
    have harith : 1 + i = i + 1 := by omega
    rw [harith] at this
    exact this

/-- Witness for claim C7: with minimum length 3, page 2's text `"xy"`
(stripped length 2) yields no chunk while the qualifying page 1 yields
exactly one. -/
theorem claim_C7_witness :
    ([PageResult.text "hello", PageResult.text "xy"] : List PageResult)[0]? =
      some (.text "hello") ∧
    pdfPageQualifies 3 "hello" = true ∧
    ((extractChunksPdfplumber 3 "f.pdf" [PageResult.text "hello", PageResult.text "xy"]).filter
      (fun c => c.pageNumber == 1)).length = 1 :=
  ⟨rfl, by decide,
   (claim_C7_pdf_page_chunks 3 "f.pdf"
      [PageResult.text "hello", PageResult.text "xy"]).2.2 0 "hello" rfl (by decide)⟩

/-! ### The two sorts of the id-generation step agree on dict metadata -/

theorem keyLe_refl (p : String × String) : keyLe p p := charListLe_refl p.1.data

theorem eq_of_perm_sorted_keys :
    ∀ {l₁ l₂ : Metadata}, l₁.Perm l₂ → l₁.Pairwise keyLe → l₂.Pairwise keyLe →
      (l₁.map Prod.fst).Nodup → l₁ = l₂
  | [], l₂, hp, _, _, _ => hp.nil_eq
  | a :: t₁, [], hp, _, _, _ => absurd hp.symm.nil_eq (by simp)
  | a :: t₁, b :: t₂, hp, hs₁, hs₂, hk => by
    have hab : a = b := by
      have ha2 : a ∈ b :: t₂ := hp.subset (List.mem_cons_self a t₁)
      have hb1 : b ∈ a :: t₁ := hp.symm.subset (List.mem_cons_self b t₂)
      have hle1 : keyLe a b := by
        rcases List.mem_cons.mp hb1 with h | h
        · rw [h]
          exact keyLe_refl a
        · exact (List.pairwise_cons.mp hs₁).1 b h
      have hle2 : keyLe b a := by
        rcases List.mem_cons.mp ha2 with h | h
        · rw [h]
          exact keyLe_refl b
        · exact (List.pairwise_cons.mp hs₂).1 a h
      have hkey : a.1 = b.1 :=
        String.ext (charListLe_antisymm hle1 hle2)
      rcases List.mem_cons.mp hb1 with h | h
      · exact h.symm
      · exfalso
        have hmem : a.1 ∈ t₁.map Prod.fst := by
          rw [hkey]
          exact List.mem_map_of_mem Prod.fst h
        have hk2 : (a.1 :: t₁.map Prod.fst).Nodup := by
          rw [← List.map_cons]
          exact hk
        exact (List.nodup_cons.mp hk2).1 hmem
    subst hab
    have hp' : t₁.Perm t₂ := hp.cons_inv
    have h₁ := (List.pairwise_cons.mp hs₁).2
    have h₂ := (List.pairwise_cons.mp hs₂).2
    have hk2 : (a.1 :: t₁.map Prod.fst).Nodup := by
      rw [← List.map_cons]
      exact hk
    have hk' : (t₁.map Prod.fst).Nodup := (List.nodup_cons.mp hk2).2
    rw [eq_of_perm_sorted_keys hp' h₁ h₂ hk']

theorem sortedItems_eq_sortByKey {md : Metadata}
    (hk : (md.map Prod.fst).Nodup) : sortedItems md = sortByKey md := by
  have hperm : (sortedItems md).Perm (sortByKey md) :=
    (List.perm_insertionSort pairLe md).trans (List.perm_insertionSort keyLe md).symm
  have hs₁ : (sortedItems md).Pairwise keyLe :=
    List.Pairwise.imp (fun h => keyLe_of_pairLe h)
      (List.sorted_insertionSort pairLe md)
  have hs₂ : (sortByKey md).Pairwise keyLe := List.sorted_insertionSort keyLe md
  have hk₁ : ((sortedItems md).map Prod.fst).Nodup :=
    (((List.perm_insertionSort pairLe md).map Prod.fst).nodup_iff).mpr hk
  exact eq_of_perm_sorted_keys hperm hs₁ hs₂ hk₁

set_option maxRecDepth 1000000

/-- Claim C2 as stated is false: with metadata `{"a": "1"}` the id the
code assigns hashes `t|"a":"1"` (each key and value double-quoted),
not the claimed `t|a:1`; the two SHA-256 digests differ. -/
theorem claim_C2_counterexample :
    (generateStableNodeIds [RagNode.mk "t" [("a", "1")] ""]).map (fun n => n.nid) ≠
      [claimNodeId (RagNode.mk "t" [("a", "1")] "")] := by
  decide

/-- Claim C2, amended: the persisted identifier of every node is the
SHA-256 of the node's text, `"|"`, and the canonical metadata string,
where the canonical string is the metadata pairs sorted by key and
joined with commas with each pair rendered `"key":"value"` — key and
value double-quoted.  (Key uniqueness holds for every Python dict.) -/
theorem claim_C2_amended_quoted_pairs (ns : List RagNode) (i : Nat) (n : RagNode)
    (hn : ns[i]? = some n) (hk : (n.metadata.map Prod.fst).Nodup) :
    ((generateStableNodeIds ns)[i]?).map (fun m => m.nid) =
      some (sha256Hex (n.text ++ "|" ++ amendedCanonicalMetadataStr n.metadata)) := by
  unfold generateStableNodeIds
  rw [List.getElem?_map, hn]
  simp only [Option.map_some']
  unfold stableNodeId contentForHash codeMetadataStr
  rw [sortedItems_eq_sortByKey hk]
  rfl

/-- Witness for the amended claim C2 at a two-key node given in
unsorted key order. -/
theorem claim_C2_witness :
    ([RagNode.mk "t" [("b", "2"), ("a", "1")] ""] : List RagNode)[0]? =
      some (RagNode.mk "t" [("b", "2"), ("a", "1")] "") ∧
    ((RagNode.mk "t" [("b", "2"), ("a", "1")] "").metadata.map Prod.fst).Nodup ∧
    ((generateStableNodeIds [RagNode.mk "t" [("b", "2"), ("a", "1")] ""])[0]?).map
        (fun m => m.nid) =
      some (sha256Hex ("t" ++ "|" ++
        amendedCanonicalMetadataStr [("b", "2"), ("a", "1")])) :=
  ⟨rfl, by decide,
   claim_C2_amended_quoted_pairs [RagNode.mk "t" [("b", "2"), ("a", "1")] ""] 0
     (RagNode.mk "t" [("b", "2"), ("a", "1")] "") rfl (by decide)⟩

/-- Claim C4: the stable identifier is a pure function of the node's
normalized text and its metadata as a mapping — two nodes with equal
text and metadata listed in any order (a Python dict determines the set
of items, not their order) receive equal identifiers — and the id
assigned at position `i` of the node list depends on nothing but the
node at position `i`, so recomputation and processing order cannot
change it. -/
theorem claim_C4_id_pure_function (n₁ n₂ : RagNode)
    (ht : n₁.text = n₂.text) (hm : n₁.metadata.Perm n₂.metadata) :
    stableNodeId n₁ = stableNodeId n₂ ∧
    ∀ (ns : List RagNode) (i : Nat),
      ((generateStableNodeIds ns)[i]?).map (fun m => m.nid) =
        (ns[i]?).map (fun m => stableNodeId m) := by
  constructor
  · have hperm : (sortedItems n₁.metadata).Perm (sortedItems n₂.metadata) :=
      ((List.perm_insertionSort pairLe n₁.metadata).trans hm).trans
        (List.perm_insertionSort pairLe n₂.metadata).symm
    have heq : sortedItems n₁.metadata = sortedItems n₂.metadata :=
      List.eq_of_perm_of_sorted hperm
        (List.sorted_insertionSort pairLe n₁.metadata)
        (List.sorted_insertionSort pairLe n₂.metadata)
    unfold stableNodeId contentForHash codeMetadataStr
    rw [heq, ht]
  · intro ns i
    unfold generateStableNodeIds
    rw [List.getElem?_map]
    cases ns[i]? <;> rfl

/-- Witness for claim C4: the same text with the metadata items in two
different insertion orders hashes to the same identifier. -/
theorem claim_C4_witness :
    (RagNode.mk "t" [("a", "1"), ("b", "2")] "").text =
      (RagNode.mk "t" [("b", "2"), ("a", "1")] "").text ∧
    (RagNode.mk "t" [("a", "1"), ("b", "2")] "").metadata.Perm
      (RagNode.mk "t" [("b", "2"), ("a", "1")] "").metadata ∧
    stableNodeId (RagNode.mk "t" [("a", "1"), ("b", "2")] "") =
      stableNodeId (RagNode.mk "t" [("b", "2"), ("a", "1")] "") :=
  ⟨rfl, by decide,
   (claim_C4_id_pure_function (RagNode.mk "t" [("a", "1"), ("b", "2")] "")
      (RagNode.mk "t" [("b", "2"), ("a", "1")] "") rfl (by decide)).1⟩

/-- Claim C6 as stated is false: `_clean_and_normalize` sorts by the
concatenated string `group_id + file_name + page_label`, and with
groups `"ab"`/`"a"` and file names `"b"`/`"c"` the concatenations order
as `"abb" < "ac"`, putting the `("ab","b")` document before the
`("a","c")` one although `("a","c",...)` is the smaller tuple. -/
theorem claim_C6_counterexample :
    ¬ claimC6Prop [Doc.mk "x" [("group_id", "a"), ("file_name", "c")],
                   Doc.mk "y" [("group_id", "ab"), ("file_name", "b")]] := by
  unfold claimC6Prop
  decide

/-- Claim C6, amended: the output of `_clean_and_normalize` is sorted
by the single string obtained by concatenating `group_id`, `file_name`
and `page_label` (missing keys as `""`), compared as strings — not by
the lexicographic order on the tuple. -/
theorem claim_C6_amended_concat_key (docs : List Doc) :
    (cleanAndNormalize docs).Pairwise
      (fun a b => strLeB (docSortKey a) (docSortKey b) = true) :=
  List.sorted_insertionSort docLe (docs.map cleanDoc)

/-! ### Lemmas on whitespace normalization (for C10) -/

theorem pyStripEnd_eq_nil_iff :
    ∀ l : List Char, pyStripEnd l = [] ↔ ∀ c ∈ l, pyIsSpace c = true
  | [] => by simp [pyStripEnd]
  | c :: cs => by
    constructor
    · intro h x hx
      unfold pyStripEnd at h
      cases hr : pyStripEnd cs with
      | nil =>
        rw [hr] at h
        rcases List.mem_cons.mp hx with hxc | hxc
        · by_cases hc : pyIsSpace c = true
          · rw [hxc]
            exact hc
          · rw [if_neg hc] at h
            exact absurd h (by simp)
        · exact ((pyStripEnd_eq_nil_iff cs).mp hr) x hxc
      | cons r rs =>
        rw [hr] at h
        exact absurd h (by simp)
    · intro h
      unfold pyStripEnd
      have hr : pyStripEnd cs = [] :=
        (pyStripEnd_eq_nil_iff cs).mpr (fun x hx => h x (List.mem_cons_of_mem c hx))
      rw [hr]
      rw [if_pos (h c (List.mem_cons_self c cs))]

theorem pyStripEnd_cons_nonspace {c : Char} (hc : pyIsSpace c = false)
    (cs : List Char) : pyStripEnd (c :: cs) = c :: pyStripEnd cs := by
  conv_lhs => rw [pyStripEnd]
  cases hr : pyStripEnd cs with
  | nil => simp [hc]
  | cons r rs => rfl

theorem pyStripEnd_cons_of_ne_nil {cs : List Char} (h : pyStripEnd cs ≠ [])
    (c : Char) : pyStripEnd (c :: cs) = c :: pyStripEnd cs := by
  conv_lhs => rw [pyStripEnd]
  cases hr : pyStripEnd cs with
  | nil => exact absurd hr h
  | cons r rs => rfl

theorem pyStripEnd_word_append {w : List Char}
    (hw : ∀ c ∈ w, pyIsSpace c = false) :
    ∀ rest, pyStripEnd (w ++ rest) = w ++ pyStripEnd rest := by
  induction w with
  | nil => intro rest; simp
  | cons c w' ih =>
    intro rest
    have hc : pyIsSpace c = false := hw c (List.mem_cons_self c w')
    have hw' : ∀ x ∈ w', pyIsSpace x = false :=
      fun x hx => hw x (List.mem_cons_of_mem c hx)
    rw [List.cons_append, pyStripEnd_cons_nonspace hc, ih hw', List.cons_append]

theorem collapseRuns_cons (c : Char) (cs : List Char) :
    collapseRuns (c :: cs) =
      if pyIsSpace c = true then
        (match cs with
         | [] => [' ']
         | x :: _ =>
           if pyIsSpace x = true then collapseRuns cs else ' ' :: collapseRuns cs)
      else c :: collapseRuns cs := by
  rw [collapseRuns.eq_def]

theorem pyWords_cons (c : Char) (cs : List Char) :
    pyWords (c :: cs) =
      if pyIsSpace c = true then pyWords cs
      else
        match cs with
        | [] => [[c]]
        | x :: _ =>
          if pyIsSpace x = true then [c] :: pyWords cs
          else (c :: (pyWords cs).headD []) :: (pyWords cs).tail := by
  rw [pyWords.eq_def]

theorem collapseRuns_word_append {w : List Char}
    (hw : ∀ c ∈ w, pyIsSpace c = false) :
    ∀ x, collapseRuns (w ++ x) = w ++ collapseRuns x := by
  induction w with
  | nil => intro x; simp
  | cons c w' ih =>
    intro x
    have hc : pyIsSpace c = false := hw c (List.mem_cons_self c w')
    have hw' : ∀ y ∈ w', pyIsSpace y = false :=
      fun y hy => hw y (List.mem_cons_of_mem c hy)
    rw [List.cons_append, collapseRuns_cons, hc]
    simp only [Bool.false_eq_true, if_false]
    rw [ih hw', List.cons_append]

theorem dropWhile_pyStripEnd_comm :
    ∀ l : List Char, (pyStripEnd l).dropWhile pyIsSpace = pyStripEnd (l.dropWhile pyIsSpace)
  | [] => by simp [pyStripEnd]
  | c :: cs => by
    by_cases hc : pyIsSpace c = true
    · cases hr : pyStripEnd cs with
      | nil =>
        have h1 : pyStripEnd (c :: cs) = [] := by
          rw [pyStripEnd_eq_nil_iff]
          intro x hx
          rcases List.mem_cons.mp hx with h | h
          · rw [h]
            exact hc
          · exact ((pyStripEnd_eq_nil_iff cs).mp hr) x h
        rw [h1]
        have h2 : (c :: cs).dropWhile pyIsSpace = cs.dropWhile pyIsSpace := by
          rw [List.dropWhile_cons_of_pos hc]
        rw [h2, ← dropWhile_pyStripEnd_comm cs, hr]
      | cons r rs =>
        have h1 : pyStripEnd (c :: cs) = c :: pyStripEnd cs :=
          pyStripEnd_cons_of_ne_nil (by rw [hr]; simp) c
        rw [h1, hr, List.dropWhile_cons_of_pos hc, List.dropWhile_cons_of_pos hc,
          ← hr, dropWhile_pyStripEnd_comm cs]
    · have hc' : pyIsSpace c = false := by
        cases h : pyIsSpace c
        · rfl
        · exact absurd h hc
      rw [pyStripEnd_cons_nonspace hc' cs, List.dropWhile_cons_of_neg (by simp [hc']),
        List.dropWhile_cons_of_neg (by simp [hc']), pyStripEnd_cons_nonspace hc' cs]

theorem pyWords_all_space :
    ∀ l : List Char, (∀ c ∈ l, pyIsSpace c = true) → pyWords l = []
  | [], _ => rfl
  | c :: cs, h => by
    rw [pyWords_cons, if_pos (h c (List.mem_cons_self c cs))]
    exact pyWords_all_space cs (fun x hx => h x (List.mem_cons_of_mem c hx))

theorem pyWords_ne_nil :
    ∀ l : List Char, ∀ c ∈ l, pyIsSpace c = false → pyWords l ≠ []
  | [], c, hc, _ => absurd hc (List.not_mem_nil c)
  | x :: xs, c, hc, hns => by
    rw [pyWords_cons]
    by_cases hx : pyIsSpace x = true
    · rw [if_pos hx]
      rcases List.mem_cons.mp hc with h | h
      · rw [h] at hns
        rw [hns] at hx
        exact absurd hx (by simp)
      · exact pyWords_ne_nil xs c h hns
    · rw [if_neg hx]
      cases xs with
      | nil => simp
      | cons y ys => by_cases hy : pyIsSpace y = true <;> simp [hy]

theorem pyWords_cons_nonspace {c : Char} (hc : pyIsSpace c = false) :
    ∀ cs : List Char,
      pyWords (c :: cs) =
        (c :: cs.takeWhile (fun x => !pyIsSpace x))
          :: pyWords (cs.dropWhile (fun x => !pyIsSpace x))
  | [] => by
    rw [pyWords_cons, if_neg (by simp [hc])]
    simp [pyWords]
  | x :: cs' => by
    rw [pyWords_cons, if_neg (by simp [hc])]
    by_cases hx : pyIsSpace x = true
    · simp only [hx, if_true]
      rw [List.takeWhile_cons_of_neg (by simp [hx]),
        List.dropWhile_cons_of_neg (by simp [hx])]
    · have hx' : pyIsSpace x = false := by
        cases h : pyIsSpace x
        · rfl
        · exact absurd h hx
      simp only [hx', Bool.false_eq_true, if_false]
      rw [pyWords_cons_nonspace hx' cs']
      rw [List.takeWhile_cons_of_pos (by simp [hx']),
        List.dropWhile_cons_of_pos (by simp [hx'])]
      simp

theorem dropWhile_head_space {l : List Char} {r : Char} {rs : List Char}
    (h : l.dropWhile (fun x => !pyIsSpace x) = r :: rs) : pyIsSpace r = true := by
  have := List.head?_dropWhile_not (fun x => !pyIsSpace x) l
  rw [h] at this
  simp only [List.head?_cons] at this
  simpa using this

theorem collapseRuns_space_cons :
    ∀ (l : List Char) (r : Char), pyIsSpace r = true →
      l.dropWhile pyIsSpace ≠ [] →
      collapseRuns (r :: l) = ' ' :: collapseRuns (l.dropWhile pyIsSpace)
  | [], r, hr, hne => absurd (by simp) hne
  | x :: xs, r, hr, hne => by
    by_cases hx : pyIsSpace x = true
    · have hstep : collapseRuns (r :: x :: xs) = collapseRuns (x :: xs) := by
        rw [collapseRuns_cons, if_pos hr]
        simp only [hx, if_true]
      rw [hstep]
      have hd : (x :: xs).dropWhile pyIsSpace = xs.dropWhile pyIsSpace :=
        List.dropWhile_cons_of_pos hx
      rw [hd]
      rw [hd] at hne
      exact collapseRuns_space_cons xs x hx hne
    · have hx' : pyIsSpace x = false := by
        cases h : pyIsSpace x
        · rfl
        · exact absurd h hx
      rw [collapseRuns_cons, if_pos hr]
      simp only [hx, Bool.false_eq_true, if_false, hx']
      rw [List.dropWhile_cons_of_neg (by simp [hx'])]

/-- The central normalization identity: joining the split words with
single spaces equals stripping the ends and collapsing every interior
whitespace run to one space. -/
theorem joinSp_pyWords_eq (l : List Char) :
    joinSp (pyWords l) = collapseRuns (pyStrip l) :=
  match l with
  | [] => by simp [pyWords, pyStrip, pyStripEnd, collapseRuns, joinSp]
  | c :: cs => by
    by_cases hc : pyIsSpace c = true
    · rw [pyWords_cons, if_pos hc]
      have h₂ : pyStrip (c :: cs) = pyStrip cs := by
        unfold pyStrip
        rw [List.dropWhile_cons_of_pos hc]
      rw [h₂]
      exact joinSp_pyWords_eq cs
    · have hc' : pyIsSpace c = false := by
        cases h : pyIsSpace c
        · rfl
        · exact absurd h hc
      rw [pyWords_cons_nonspace hc' cs]
      have hwns : ∀ a ∈ cs.takeWhile (fun x => !pyIsSpace x), pyIsSpace a = false := by
        intro a ha
        simpa using List.mem_takeWhile_imp ha
      have hcwns : ∀ a ∈ c :: cs.takeWhile (fun x => !pyIsSpace x), pyIsSpace a = false := by
        intro a ha
        rcases List.mem_cons.mp ha with h | h
        · rw [h]
          exact hc'
        · exact hwns a h
      have hstrip : pyStrip (c :: cs) =
          (c :: cs.takeWhile (fun x => !pyIsSpace x)) ++
            pyStripEnd (cs.dropWhile (fun x => !pyIsSpace x)) := by
        unfold pyStrip
        rw [List.dropWhile_cons_of_neg (by simp [hc']),
          pyStripEnd_cons_nonspace hc' cs]
        conv_lhs =>
          rw [← List.takeWhile_append_dropWhile (fun x => !pyIsSpace x) cs]
        rw [pyStripEnd_word_append hwns, List.cons_append]
      rw [hstrip, collapseRuns_word_append hcwns]
      cases hpw : pyWords (cs.dropWhile (fun x => !pyIsSpace x)) with
      | nil =>
        have hall : ∀ a ∈ cs.dropWhile (fun x => !pyIsSpace x), pyIsSpace a = true := by
          intro a ha
          by_cases hsa : pyIsSpace a = true
          · exact hsa
          · have hsa' : pyIsSpace a = false := by
              cases h : pyIsSpace a
              · rfl
              · exact absurd h hsa
            exact absurd hpw
              (pyWords_ne_nil (cs.dropWhile (fun x => !pyIsSpace x)) a ha hsa')
        have hse : pyStripEnd (cs.dropWhile (fun x => !pyIsSpace x)) = [] :=
          (pyStripEnd_eq_nil_iff _).mpr hall
        rw [hse]
        simp [joinSp, collapseRuns]
      | cons w₂ ws₂ =>
        rw [← hpw]
        have hne : pyWords (cs.dropWhile (fun x => !pyIsSpace x)) ≠ [] := by
          rw [hpw]
          simp
        cases hrest : cs.dropWhile (fun x => !pyIsSpace x) with
        | nil =>
          rw [hrest] at hpw
          simp [pyWords] at hpw
        | cons r rs =>
          have hr : pyIsSpace r = true := dropWhile_head_space hrest
          rw [hrest] at hne
          have hsene : pyStripEnd (r :: rs) ≠ [] := by
            intro hnil
            have hall := (pyStripEnd_eq_nil_iff (r :: rs)).mp hnil
            exact hne (pyWords_all_space (r :: rs) hall)
          have hsers : pyStripEnd rs ≠ [] := by
            intro hnil
            apply hsene
            rw [pyStripEnd_eq_nil_iff]
            intro a ha
            rcases List.mem_cons.mp ha with h | h
            · rw [h]
              exact hr
            · exact (pyStripEnd_eq_nil_iff rs).mp hnil a h
          have hse1 : pyStripEnd (r :: rs) = r :: pyStripEnd rs :=
            pyStripEnd_cons_of_ne_nil hsers r
          have hdwne : (pyStripEnd rs).dropWhile pyIsSpace ≠ [] := by
            rw [dropWhile_pyStripEnd_comm rs]
            intro hnil
            have hall := (pyStripEnd_eq_nil_iff _).mp hnil
            have hdw : rs.dropWhile pyIsSpace = [] := by
              cases hdw : rs.dropWhile pyIsSpace with
              | nil => rfl
              | cons d ds =>
                exfalso
                have hd := hall d (by rw [hdw]; exact List.mem_cons_self d ds)
                have hd' := List.head?_dropWhile_not pyIsSpace rs
                rw [hdw] at hd'
                simp only [List.head?_cons] at hd'
                rw [hd] at hd'
                exact Bool.noConfusion hd'
            have hrsall : ∀ a ∈ rs, pyIsSpace a = true := by
              have hiff := List.dropWhile_eq_nil_iff.mp hdw
              intro a ha
              simpa using hiff a ha
            apply hne
            apply pyWords_all_space
            intro a ha
            rcases List.mem_cons.mp ha with h | h
            · rw [h]
              exact hr
            · exact hrsall a h
          have hrec : joinSp (pyWords (r :: rs)) = collapseRuns (pyStrip (r :: rs)) :=
            joinSp_pyWords_eq (r :: rs)
          have hstrip2 : pyStrip (r :: rs) = (pyStripEnd rs).dropWhile pyIsSpace := by
            unfold pyStrip
            rw [List.dropWhile_cons_of_pos hr, ← dropWhile_pyStripEnd_comm rs]
          rw [hse1, collapseRuns_space_cons (pyStripEnd rs) r hr hdwne]
          have hjoin : joinSp ((c :: cs.takeWhile (fun x => !pyIsSpace x)) :: pyWords (r :: rs)) =
              (c :: cs.takeWhile (fun x => !pyIsSpace x)) ++ ' ' :: joinSp (pyWords (r :: rs)) := by
            rw [hrest] at hpw
            rw [hpw]
            rfl
          rw [hjoin, hrec, hstrip2]
  termination_by l.length
  decreasing_by
    · simp
    · have h1 := (List.dropWhile_sublist (l := cs) (fun x => !pyIsSpace x)).length_le
      have h2 : (cs.dropWhile (fun x => !pyIsSpace x)).length = (r :: rs).length := by
        rw [hrest]
      simp only [List.length_cons] at h2 ⊢
      omega

theorem pyWords_words :
    ∀ (l : List Char) (w : List Char), w ∈ pyWords l →
      w ≠ [] ∧ ∀ c ∈ w, pyIsSpace c = false
  | [], w, hw => absurd hw (by simp [pyWords])
  | c :: cs, w, hw => by
    rw [pyWords_cons] at hw
    by_cases hc : pyIsSpace c = true
    · rw [if_pos hc] at hw
      exact pyWords_words cs w hw
    · have hc' : pyIsSpace c = false := by
        cases h : pyIsSpace c
        · rfl
        · exact absurd h hc
      rw [if_neg hc] at hw
      cases cs with
      | nil =>
        simp only [List.mem_singleton] at hw
        rw [hw]
        refine ⟨by simp, ?_⟩
        intro x hx
        simp only [List.mem_singleton] at hx
        rw [hx]
        exact hc'
      | cons x cs' =>
        have hw2 : w ∈ (if pyIsSpace x = true then [c] :: pyWords (x :: cs')
            else (c :: (pyWords (x :: cs')).headD []) :: (pyWords (x :: cs')).tail) := hw
        by_cases hx : pyIsSpace x = true
        · rw [if_pos hx] at hw2
          rcases List.mem_cons.mp hw2 with h | h
          · rw [h]
            refine ⟨by simp, ?_⟩
            intro y hy
            simp only [List.mem_singleton] at hy
            rw [hy]
            exact hc'
          · exact pyWords_words (x :: cs') w h
        · have hx' : pyIsSpace x = false := by
            cases h : pyIsSpace x
            · rfl
            · exact absurd h hx
          rw [if_neg hx] at hw2
          cases hpw : pyWords (x :: cs') with
          | nil =>
            exact absurd hpw
              (pyWords_ne_nil (x :: cs') x (List.mem_cons_self x cs') hx')
          | cons w₀ ws₀ =>
            rw [hpw] at hw2
            simp only [List.headD_cons, List.tail_cons] at hw2
            rcases List.mem_cons.mp hw2 with h | h
            · have hw₀ := pyWords_words (x :: cs') w₀ (by rw [hpw]; exact List.mem_cons_self w₀ ws₀)
              rw [h]
              refine ⟨by simp, ?_⟩
              intro y hy
              rcases List.mem_cons.mp hy with hyc | hyc
              · rw [hyc]
                exact hc'
              · exact hw₀.2 y hyc
            · exact pyWords_words (x :: cs') w
                (by rw [hpw]; exact List.mem_cons_of_mem w₀ h)

theorem mem_joinSp :
    ∀ (ws : List (List Char)) (c : Char), c ∈ joinSp ws →
      c = ' ' ∨ ∃ w ∈ ws, c ∈ w
  | [], c, hc => absurd hc (by simp [joinSp])
  | w :: ws, c, hc => by
    cases ws with
    | nil => exact Or.inr ⟨w, List.mem_cons_self w [], hc⟩
    | cons w' ws' =>
      have hj : joinSp (w :: w' :: ws') = w ++ ' ' :: joinSp (w' :: ws') := rfl
      rw [hj] at hc
      rcases List.mem_append.mp hc with h | h
      · exact Or.inr ⟨w, List.mem_cons_self w _, h⟩
      · rcases List.mem_cons.mp h with h | h
        · exact Or.inl h
        · rcases mem_joinSp (w' :: ws') c h with h | ⟨w₁, hw₁, hcw⟩
          · exact Or.inl h
          · exact Or.inr ⟨w₁, List.mem_cons_of_mem w hw₁, hcw⟩

theorem chain'_all_nonspace {w : List Char}
    (hw : ∀ c ∈ w, pyIsSpace c = false) :
    w.Chain' (fun a b => ¬(pyIsSpace a = true ∧ pyIsSpace b = true)) := by
  induction w with
  | nil => exact List.chain'_nil
  | cons c w' ih =>
    rw [List.chain'_cons']
    constructor
    · intro y _
      intro hcontra
      have := hw c (List.mem_cons_self c w')
      rw [this] at hcontra
      exact Bool.noConfusion hcontra.1
    · exact ih (fun y hy => hw y (List.mem_cons_of_mem c hy))

theorem joinSp_head_ne_nil {w : List Char} (hw : w ≠ []) :
    ∀ ws, (joinSp (w :: ws)).head? = w.head? := by
  intro ws
  cases ws with
  | nil => rfl
  | cons w' ws' =>
    have hj : joinSp (w :: w' :: ws') = w ++ ' ' :: joinSp (w' :: ws') := rfl
    rw [hj]
    cases w with
    | nil => exact absurd rfl hw
    | cons c cw => rfl

theorem chain'_joinSp :
    ∀ ws : List (List Char),
      (∀ w ∈ ws, w ≠ [] ∧ ∀ c ∈ w, pyIsSpace c = false) →
      (joinSp ws).Chain' (fun a b => ¬(pyIsSpace a = true ∧ pyIsSpace b = true))
  | [], _ => List.chain'_nil
  | w :: ws, h => by
    cases ws with
    | nil => exact chain'_all_nonspace (h w (List.mem_cons_self w [])).2
    | cons w' ws' =>
      have hj : joinSp (w :: w' :: ws') = w ++ ' ' :: joinSp (w' :: ws') := rfl
      rw [hj, List.chain'_append]
      refine ⟨chain'_all_nonspace (h w (List.mem_cons_self w _)).2, ?_, ?_⟩
      · rw [List.chain'_cons']
        constructor
        · intro y hy
          have hrec := h w' (List.mem_cons_of_mem w (List.mem_cons_self w' ws'))
          rw [joinSp_head_ne_nil hrec.1 ws'] at hy
          intro hcontra
          have hyw : y ∈ w' := by
            cases w' with
            | nil => exact absurd rfl hrec.1
            | cons c cw =>
              simp only [List.head?_cons, Option.mem_def, Option.some.injEq] at hy
              rw [← hy]
              exact List.mem_cons_self c cw
          have := hrec.2 y hyw
          rw [this] at hcontra
          exact Bool.noConfusion hcontra.2
        · exact chain'_joinSp (w' :: ws')
            (fun v hv => h v (List.mem_cons_of_mem w hv))
      · intro x hx y hy
        simp only [List.head?_cons, Option.mem_def, Option.some.injEq] at hy
        intro hcontra
        have hxw : x ∈ w := List.mem_of_getLast?_eq_some hx
        have := (h w (List.mem_cons_self w _)).2 x hxw
        rw [this] at hcontra
        exact Bool.noConfusion hcontra.1

/-- Claim C10 as stated is false on leading (and trailing) whitespace:
on the single document `" a"` the code returns text `"a"`, while
replacing the maximal leading whitespace run by a single space would
give `" a"`. -/
theorem claim_C10_counterexample : ¬ claimC10Prop [Doc.mk " a" []] := by
  unfold claimC10Prop
  decide

/-- Claim C10, amended: `_clean_and_normalize` returns exactly one
output document per input document (a permutation of the cleaned
inputs — none dropped or duplicated); each output text equals the
newline-normalized input text with leading and trailing whitespace
removed and every interior maximal whitespace run replaced by a single
space; consequently no output text contains a carriage return, a line
feed, or two consecutive whitespace characters. -/
theorem claim_C10_amended_normalization (docs : List Doc) :
    (cleanAndNormalize docs).Perm (docs.map cleanDoc) ∧
    (∀ d : Doc, (cleanDoc d).text.data =
        collapseRuns (pyStrip (normalizeNewlines d.text.data))) ∧
    (∀ d ∈ cleanAndNormalize docs,
      (∀ c ∈ d.text.data, ¬(c = '\r' ∨ c = '\n')) ∧
      d.text.data.Chain' (fun a b => ¬(pyIsSpace a = true ∧ pyIsSpace b = true))) := by
  refine ⟨List.perm_insertionSort docLe (docs.map cleanDoc), ?_, ?_⟩
  · intro d
    show (pyNormalizeText d.text).data = _
    unfold pyNormalizeText
    show joinSp (pyWords (normalizeNewlines d.text.data)) = _
    exact joinSp_pyWords_eq (normalizeNewlines d.text.data)
  · intro d hd
    have hd' : d ∈ docs.map cleanDoc :=
      ((List.perm_insertionSort docLe (docs.map cleanDoc)).mem_iff).mp hd
    obtain ⟨d₀, _, rfl⟩ := List.mem_map.mp hd'
    have htext : (cleanDoc d₀).text.data =
        joinSp (pyWords (normalizeNewlines d₀.text.data)) := rfl
    constructor
    · intro c hc
      rw [htext] at hc
      rcases mem_joinSp _ c hc with h | ⟨w, hw, hcw⟩
      · rw [h]
        decide
      · have hns := (pyWords_words _ w hw).2 c hcw
        intro hcr
        rcases hcr with h | h <;> rw [h] at hns <;> exact Bool.noConfusion hns
    · rw [htext]
      exact chain'_joinSp _ (fun w hw => pyWords_words _ w hw)

/-- Witness for the amended claim C10 on the document `" a\r\n b "`:
its cleaned text is `"a b"`, a member of the output, and its first
character is neither a carriage return nor a line feed. -/
theorem claim_C10_witness :
    Doc.mk "a b" [] ∈ cleanAndNormalize [Doc.mk " a\r\n b " []] ∧
    'a' ∈ (Doc.mk "a b" [] : Doc).text.data ∧
    ¬('a' = '\r' ∨ 'a' = '\n') :=
  ⟨by decide, by decide,
   ((claim_C10_amended_normalization [Doc.mk " a\r\n b " []]).2.2
      (Doc.mk "a b" []) (by decide)).1 'a' (by decide)⟩
